import Mathlib

/-!
Verification of the nanochat IPv6 pipeline: a shallow embedding of the
IPv6 segment tokenizer (`nanochat/tokenizer_ipv6.py`), the liveness
scanner (`nanochat/scanner.py`) and the low-memory data preparation
script (`dev/prepare_ipv6_parquet.py`), together with proofs of the
specification's claims about them.

Strings are modelled as `List Char`; Python integers as `Int` (token
ids) or `Nat` (hextet values); the `ipaddress` standard-library calls
used by the source (`IPv6Address` construction, `.exploded`, `str`)
are embedded from CPython's `ipaddress._ip_int_from_string`,
`_string_from_ip_int` and `_compress_hextets`.
-/

namespace NanoChat

/-! ## Characters and hex rendering -/

/-- Python `str.strip()` whitespace (ASCII fragment, by code point). -/
def pyWhitespace (c : Char) : Bool :=
  c.toNat = 32 || c.toNat = 9 || c.toNat = 10 || c.toNat = 13 ||
  c.toNat = 11 || c.toNat = 12

/-- Python `str.strip()`: drop leading and trailing whitespace. -/
def pyStrip (s : List Char) : List Char :=
  ((s.dropWhile pyWhitespace).reverse.dropWhile pyWhitespace).reverse

/-- The hex digit set accepted by `ipaddress._parse_hextet`
(`0-9a-fA-F`, by code point). -/
def isHexDig (c : Char) : Bool :=
  (48 ≤ c.toNat && c.toNat ≤ 57) || (97 ≤ c.toNat && c.toNat ≤ 102) ||
  (65 ≤ c.toNat && c.toNat ≤ 70)

/-- Decimal digits `0-9`, by code point. -/
def isDecDig (c : Char) : Bool := 48 ≤ c.toNat && c.toNat ≤ 57

/-- Numeric value of one hex digit. -/
def hexDigVal (c : Char) : Nat :=
  if 48 ≤ c.toNat && c.toNat ≤ 57 then c.toNat - 48
  else if 97 ≤ c.toNat && c.toNat ≤ 102 then c.toNat - 87
  else c.toNat - 55

/-- Value of a big-endian hex digit string (Python `int(s, 16)` on the
accepted digit set). -/
def hexVal (cs : List Char) : Nat :=
  cs.foldl (fun a c => 16 * a + hexDigVal c) 0

def decVal (cs : List Char) : Nat :=
  cs.foldl (fun a c => 10 * a + (c.toNat - 48)) 0

/-- Lowercase hex digit character. -/
def hexDigChar (n : Nat) : Char :=
  if n < 10 then Char.ofNat (48 + n) else Char.ofNat (87 + n)

/-- Hex rendering helper; the fuel argument bounds recursion depth. -/
def toHexAux : Nat → Nat → List Char
  | 0, _ => []
  | _ + 1, 0 => []
  | fuel + 1, n => toHexAux fuel (n / 16) ++ [hexDigChar (n % 16)]

/-- Python `'%x' % n`: lowercase hex, no padding, `"0"` for zero. -/
def hexNoPad (n : Nat) : List Char :=
  if n = 0 then ['0'] else toHexAux n n

/-- Python `f"{n:04x}"` / `'%04x' % n`: zero-padded to width 4. -/
def hex4 (n : Nat) : List Char :=
  let d := hexNoPad n
  List.replicate (4 - d.length) '0' ++ d

/-! ## Splitting and joining -/

/-- Python `str.split(sep)` for a one-character separator. -/
def splitCh (c : Char) : List Char → List (List Char)
  | [] => [[]]
  | x :: xs =>
    if x = c then [] :: splitCh c xs
    else
      match splitCh c xs with
      | [] => [[x]]
      | g :: gs => (x :: g) :: gs

/-- Python `sep.join(parts)` for a one-character separator. -/
def joinCh (c : Char) : List (List Char) → List Char
  | [] => []
  | [g] => g
  | g :: gs => g ++ c :: joinCh c gs

/-! ## `ipaddress` parsing (CPython `_ip_int_from_string` and friends)

The source constructs `ipaddress.IPv6Address(text)` and uses
`.exploded` and `str(...)`.  We embed the CPython implementation: the
address value is represented as its list of 8 hextet values
(big-endian base-2^16 digits of the 128-bit integer). -/

/-- CPython `IPv6Address._parse_hextet`: 1–4 hex digits. -/
def parseHextet (cs : List Char) : Option Nat :=
  if ¬ cs.all isHexDig then none
  else if 4 < cs.length then none
  else if cs = [] then none
  else some (hexVal cs)

/-- Parse a list of hextet strings, failing if any fails. -/
def parseHextets : List (List Char) → Option (List Nat)
  | [] => some []
  | p :: ps =>
    match parseHextet p, parseHextets ps with
    | some v, some vs => some (v :: vs)
    | _, _ => none

/-- CPython `IPv4Address._parse_octet`: 1–3 decimal digits, no leading
zero, value at most 255. -/
def parseOctet (cs : List Char) : Option Nat :=
  if cs = [] then none
  else if ¬ cs.all isDecDig then none
  else if 3 < cs.length then none
  else if cs ≠ ['0'] ∧ cs.headD ' ' = '0' then none
  else if 255 < decVal cs then none
  else some (decVal cs)

/-- Parse a list of octet strings, failing if any fails. -/
def parseOctets : List (List Char) → Option (List Nat)
  | [] => some []
  | p :: ps =>
    match parseOctet p, parseOctets ps with
    | some v, some vs => some (v :: vs)
    | _, _ => none

/-- CPython `IPv4Address._ip_int_from_string`: exactly four octets. -/
def parseIPv4 (cs : List Char) : Option Nat :=
  match parseOctets (splitCh '.' cs) with
  | some [a, b, c, d] => some (((a * 256 + b) * 256 + c) * 256 + d)
  | _ => none

/-- Index of the first empty entry, counting from `i`. -/
def findEmptyIdx : List (List Char) → Nat → Option Nat
  | [], _ => none
  | p :: ps, i => if p.isEmpty then some i else findEmptyIdx ps (i + 1)

/-- Number of empty entries. -/
def countEmpty (l : List (List Char)) : Nat :=
  (l.filter (fun p => p.isEmpty)).length

/-- The `::`-handling part of CPython `IPv6Address._ip_int_from_string`:
given the colon-separated parts (after IPv4-suffix substitution),
locate the at-most-one empty interior part, validate the endpoints and
assemble the 8 hextet values. -/
def assemble (parts : List (List Char)) : Option (List Nat) :=
  let inner := (parts.drop 1).dropLast
  match findEmptyIdx inner 0 with
  | some j =>
    if 2 ≤ countEmpty inner then none
    else
      let skip := j + 1
      let hi0 := skip
      let lo0 := parts.length - skip - 1
      match (if (parts.headD [' ']).isEmpty then (if hi0 = 1 then some 0 else none) else some hi0),
            (if (parts.getLastD [' ']).isEmpty then (if lo0 = 1 then some 0 else none) else some lo0) with
      | some hi, some lo =>
        if 8 ≤ hi + lo then none
        else
          match parseHextets (parts.take hi), parseHextets (parts.drop (parts.length - lo)) with
          | some hiVals, some loVals =>
            some (hiVals ++ List.replicate (8 - (hi + lo)) 0 ++ loVals)
          | _, _ => none
      | _, _ => none
  | none =>
    if parts.length ≠ 8 then none
    else if (parts.headD [' ']).isEmpty then none
    else if (parts.getLastD [' ']).isEmpty then none
    else parseHextets parts

/-- CPython `IPv6Address._ip_int_from_string`, returning the 8 hextet
values of the parsed 128-bit integer. -/
def parseIPv6Core (cs : List Char) : Option (List Nat) :=
  if cs = [] then none
  else
    let parts0 := splitCh ':' cs
    if parts0.length < 3 then none
    else
      match (if (parts0.getLastD []).contains '.' then
               (parseIPv4 (parts0.getLastD [])).map
                 (fun w => parts0.dropLast ++ [hexNoPad (w / 65536), hexNoPad (w % 65536)])
             else some parts0) with
      | none => none
      | some parts =>
        if 9 < parts.length then none
        else assemble parts

/-- CPython `IPv6Address._split_scope_id`: split off a zone id at the
first `%`; a present separator requires a nonempty scope with no
further `%`. -/
def splitScope (cs : List Char) : Option (List Char × Option (List Char)) :=
  let addr := cs.takeWhile (fun c => c ≠ '%')
  match cs.dropWhile (fun c => c ≠ '%') with
  | [] => some (cs, none)
  | _ :: scope =>
    if scope = [] ∨ scope.contains '%' then none else some (addr, some scope)

/-- CPython `IPv6Address.__init__` on a string: reject `/`, split the
scope id, parse the address part; result is the hextet-value list
together with the optional scope id. -/
def parseAddr (cs : List Char) : Option (List Nat × Option (List Char)) :=
  if cs.contains '/' then none
  else
    match splitScope cs with
    | none => none
    | some (addr, scope) => (parseIPv6Core addr).map (fun v => (v, scope))

/-! ## `ipaddress` rendering -/

/-- The best-zero-run scan of CPython `_compress_hextets`: fold over
the no-pad hextet strings keeping the best and the current run of
`"0"` entries (start, length pairs; a length of 0 means no run). -/
def bestRunLoop : List (List Char) → Nat → Nat × Nat → Nat × Nat → Nat × Nat
  | [], _, best, _ => best
  | h :: t, i, best, cur =>
    if h = ['0'] then
      let cS := if cur.2 = 0 then i else cur.1
      let cL := cur.2 + 1
      bestRunLoop t (i + 1) (if best.2 < cL then (cS, cL) else best) (cS, cL)
    else
      bestRunLoop t (i + 1) best (0, 0)

/-- CPython `_compress_hextets`: replace the best run of at least two
`"0"` entries by an empty part, adding empty endpoint parts when the
run touches an end. -/
def compressHextets (hs : List (List Char)) : List (List Char) :=
  let best := bestRunLoop hs 0 (0, 0) (0, 0)
  if 1 < best.2 then
    let hs1 := if best.1 + best.2 = hs.length then hs ++ [[]] else hs
    let hs2 := hs1.take best.1 ++ [[]] ++ hs1.drop (best.1 + best.2)
    if best.1 = 0 then [] :: hs2 else hs2
  else hs

/-- CPython `IPv6Address.__str__` (`_string_from_ip_int`): no-pad hex
hextets, compressed, joined with colons. -/
def compressChars (v : List Nat) : List Char :=
  joinCh ':' (compressHextets (v.map hexNoPad))

/-- The exploded form: 8 zero-padded hextets joined with colons. -/
def explodedChars (v : List Nat) : List Char :=
  joinCh ':' (v.map hex4)

/-- CPython `IPv6Address.exploded` (via `_explode_shorthand_ip_string`):
render `str(self)` and re-parse it, then join the zero-padded hextets.
For a scoped address `str(self)` carries the `%zone` suffix, so the
re-parse raises `AddressValueError`; this is modelled by `none`. -/
def explodedOf (v : List Nat) (scope : Option (List Char)) : Option (List Char) :=
  match scope with
  | some _ => none
  | none => (parseIPv6Core (compressChars v)).map explodedChars

/-! ## The tokenizer (`nanochat/tokenizer_ipv6.py`) -/

def TOKEN_OFFSET : Int := 65536

def SPECIAL_TOKENS : List String :=
  ["<|bos|>", "<|eos|>", "<|pad|>",
   "<|user_start|>", "<|user_end|>", "<|assistant_start|>", "<|assistant_end|>"]

/-- Index of the first occurrence of `t`, counting from `i`. -/
def lookupIdx (t : String) : List String → Nat → Option Nat
  | [], _ => none
  | s :: rest, i => if s = t then some i else lookupIdx t rest (i + 1)

/-- `special_tokens_map`: token name to id, ids starting at `TOKEN_OFFSET`. -/
def specialTokensMap (t : String) : Option Int :=
  (lookupIdx t SPECIAL_TOKENS 0).map (fun i => TOKEN_OFFSET + (i : Int))

/-- `id_to_special_token` membership: ids of the special tokens. -/
def isSpecialId (i : Int) : Bool :=
  (List.range SPECIAL_TOKENS.length).any (fun k => i = TOKEN_OFFSET + (k : Int))

def bos_token_id : Int := (specialTokensMap "<|bos|>").getD 0

def eos_token_id : Int := (specialTokensMap "<|eos|>").getD 0

/-- `encode_special`: map lookup with the eos id as default. -/
def encode_special (t : String) : Int :=
  (specialTokensMap t).getD eos_token_id

/-- The body part of `_encode_one`: strip, construct `IPv6Address`,
take `.exploded`, split on `:` and convert each part with `int(_, 16)`
(each part of an exploded form is 4 hex digits, so plain `hexVal`);
every `ValueError` on the way yields no body tokens. -/
def encodeBody (text : List Char) : List Int :=
  match parseAddr (pyStrip text) with
  | none => []
  | some (v, scope) =>
    match explodedOf v scope with
    | none => []
    | some full => (splitCh ':' full).map (fun p => (hexVal p : Int))

/-- `_encode_one` with integer (or absent) `prepend`/`append` tokens. -/
def encodeOne (text : List Char) (prepend append : Option Int) : List Int :=
  (match prepend with | some p => [p] | none => []) ++
  (if pyStrip text = [] then [] else encodeBody text) ++
  (match append with | some a => [a] | none => [])

/-- The part-collecting loop of `decode`: special ids are skipped, ids
in `[0, 65535]` are rendered as 4 hex digits, others are ignored. -/
def decodeParts : List Int → List (List Char)
  | [] => []
  | idx :: rest =>
    if isSpecialId idx then decodeParts rest
    else if 0 ≤ idx ∧ idx ≤ 65535 then hex4 idx.toNat :: decodeParts rest
    else decodeParts rest

/-- `decode`: join the rendered parts with colons and recompress via
`str(ipaddress.IPv6Address(full_ip))` when that construction succeeds. -/
def decode (ids : List Int) : String :=
  let parts := decodeParts ids
  if parts = [] then ""
  else
    let fullIp := joinCh ':' parts
    match parseAddr fullIp with
    | some (v, _) => String.mk (compressChars v)
    | none => String.mk fullIp

/-- One message of a conversation. -/
structure Message where
  role : String
  content : String

/-- `render_conversation`: a leading bos with mask 0; user bodies with
mask 0; assistant bodies and a following eos with mask 1; both lists
truncated to `maxTokens`. -/
def renderConversation (conversation : List Message) (maxTokens : Nat) :
    List Int × List Nat :=
  let step := fun (acc : List Int × List Nat) (message : Message) =>
    let encodedIp := encodeOne message.content.toList none none
    if message.role = "user" then
      (acc.1 ++ encodedIp, acc.2 ++ List.replicate encodedIp.length 0)
    else if message.role = "assistant" then
      (acc.1 ++ encodedIp ++ [eos_token_id],
       acc.2 ++ List.replicate encodedIp.length 1 ++ [1])
    else acc
  let r := conversation.foldl step ([bos_token_id], [0])
  (r.1.take maxTokens, r.2.take maxTokens)

/-- Token block of one message as the specification describes it: the
encoded body, an eos token appended after a generating-role message. -/
def msgIds (m : Message) : List Int :=
  let enc := encodeOne m.content.toList none none
  if m.role = "user" then enc
  else if m.role = "assistant" then enc ++ [eos_token_id]
  else []

/-- Mask block of one message as the specification describes it. -/
def msgMask (m : Message) : List Nat :=
  let enc := encodeOne m.content.toList none none
  if m.role = "user" then List.replicate enc.length 0
  else if m.role = "assistant" then List.replicate enc.length 1 ++ [1]
  else []

/-- The conversation token sequence as the specification describes it:
a leading start token, then each message's block in order. -/
def renderIdsSpec (conversation : List Message) : List Int :=
  bos_token_id :: (conversation.map msgIds).flatten

/-- The parallel supervision mask as the specification describes it. -/
def renderMaskSpec (conversation : List Message) : List Nat :=
  0 :: (conversation.map msgMask).flatten

/-! ## The scanner (`nanochat/scanner.py`) -/

/-- Outcome of one `ping6` probe as observed by `_ping_single`. -/
inductive ProbeOutcome
  | success
  | exitFailure
  | timeout
deriving DecidableEq

/-- `_ping_single`: `True` on a clean exit; `CalledProcessError` and
`TimeoutExpired` are caught and give `False`. -/
def pingSingle (outcome : ProbeOutcome) : Bool :=
  match outcome with
  | .success => true
  | .exitFailure => false
  | .timeout => false

/-- Python `dict.get` over an insertion list whose most recent binding
comes first. -/
def dictGet (k : String) : List (String × ℚ) → Option ℚ
  | [] => none
  | (a, v) :: t => if a = k then some v else dictGet k t

/-- The `ip_status` dictionary built by the `as_completed` loop:
`completions` is the order in which the probe futures complete. -/
def buildStatus (probe : String → ProbeOutcome) (completions : List String) :
    List (String × ℚ) :=
  completions.foldl
    (fun m ip => (ip, if pingSingle (probe ip) then (1 : ℚ) else 0) :: m) []

/-- `verify_batch` in non-mock mode: probe every address concurrently,
collect completion results into `ip_status`, then read the scores back
in input order with default `0.0`. -/
def verifyBatch (probe : String → ProbeOutcome) (completions : List String)
    (ipList : List String) : List ℚ :=
  let status := buildStatus probe completions
  ipList.map (fun ip => (dictGet ip status).getD 0)

/-! ## Data preparation (`dev/prepare_ipv6_parquet.py`) -/

/-- The per-line step of the bucketizing loop: strip, skip empties and
`#`-comments, otherwise emit the bytes written to the chosen bucket. -/
def processLine (line : List Char) : Option (List Char) :=
  let l := pyStrip line
  if l = [] then none
  else if l.headD ' ' = '#' then none
  else some (l ++ ['\n'])

/-- `expand_ipv6`: canonical exploded form, or `none` on a parse error. -/
def expand_ipv6 (cs : List Char) : Option (List Char) :=
  match parseAddr cs with
  | some (v, scope) => explodedOf v scope
  | none => none

/-- The bucket-reduction dedup loop: expand each stripped line and
insert the successes into a set (modelled as a duplicate-free list in
first-insertion order; the later `list(...)`/`shuffle` step is an
arbitrary permutation, which absorbs the set's iteration order). -/
def uniqueIps (rawLines : List (List Char)) : List (List Char) :=
  rawLines.foldl
    (fun acc line =>
      match expand_ipv6 (pyStrip line) with
      | some e => if e ∈ acc then acc else acc ++ [e]
      | none => acc) []

/-- Chunking helper; the fuel argument bounds recursion depth. -/
def chunksOfAux (c : Nat) : Nat → List α → List (List α)
  | 0, _ => []
  | _ + 1, [] => []
  | fuel + 1, l => l.take c :: chunksOfAux c fuel (l.drop c)

/-- The shard-writing loop: slice the shuffled list into chunks of
`DOCS_PER_SHARD` rows, the final chunk keeping the remainder. -/
def chunksOf (c : Nat) (l : List α) : List (List α) :=
  if c = 0 then [] else chunksOfAux c l.length l

/-! # Theorems -/

/-! ## C8: the worked example of the specification -/

/-- C8: encoding `"2001:db8::1"` with no prepend or append yields
exactly `[0x2001, 0x0db8, 0, 0, 0, 0, 0, 1]`, and decoding that
sequence yields `"2001:db8::1"`. -/
theorem c8_example_round_trip :
    encodeOne "2001:db8::1".toList none none = [0x2001, 0x0db8, 0, 0, 0, 0, 0, 1] ∧
    decode [0x2001, 0x0db8, 0, 0, 0, 0, 0, 1] = "2001:db8::1" := by
  decide

/-! ## C10: `encode_special` on undefined names -/

/-- C10: `encode_special` returns the end-of-sequence id 65537 for any
string that is not one of the seven special-token names, and each
special-token name maps to its own id. -/
theorem c10_encode_special_default :
    (∀ s : String, s ∉ SPECIAL_TOKENS → encode_special s = 65537) ∧
    SPECIAL_TOKENS.map encode_special =
      [65536, 65537, 65538, 65539, 65540, 65541, 65542] := by
  constructor
  · intro s hs
    simp only [SPECIAL_TOKENS, List.mem_cons, List.mem_singleton, not_or] at hs
    obtain ⟨h1, h2, h3, h4, h5, h6, h7, -⟩ := hs
    simp [encode_special, specialTokensMap, SPECIAL_TOKENS, lookupIdx, eos_token_id,
      TOKEN_OFFSET,
      Ne.symm h1, Ne.symm h2, Ne.symm h3, Ne.symm h4, Ne.symm h5, Ne.symm h6, Ne.symm h7]
  · decide

/-- Witness for C10 at the concrete input `"hello"`. -/
theorem c10_encode_special_default_witness :
    ("hello" ∉ SPECIAL_TOKENS) ∧ encode_special "hello" = 65537 :=
  ⟨by decide, c10_encode_special_default.1 "hello" (by decide)⟩

/-! ## C4: the bucketizer's per-line write -/

/-- C4 counterexample: the line `" a"` is not blank and does not start
with `'#'`, yet the bytes written are `"a\n"`, not the original line's
content followed by a newline: the code strips surrounding whitespace
first. -/
theorem c4_counterexample :
    " a".toList ≠ [] ∧ (" a".toList).headD ' ' ≠ '#' ∧
    processLine " a".toList = some "a\n".toList ∧
    processLine " a".toList ≠ some (" a".toList ++ ['\n']) := by
  decide

/-- C4 (amended): for every input line whose whitespace-stripped form
is nonempty and does not start with `'#'`, the bucketizer appends the
stripped line followed by a newline; when the line carries no
surrounding whitespace this is the line's own content unchanged. -/
theorem c4_verbatim_stripped (line : List Char)
    (h1 : pyStrip line ≠ []) (h2 : (pyStrip line).headD ' ' ≠ '#') :
    processLine line = some (pyStrip line ++ ['\n']) ∧
    (pyStrip line = line → processLine line = some (line ++ ['\n'])) := by
  have h2x : ¬(pyStrip line).head?.getD ' ' = '#' := by simpa using h2
  have hmain : processLine line = some (pyStrip line ++ ['\n']) := by
    simp [processLine, h1, h2x]
  refine ⟨hmain, fun hid => ?_⟩
  rw [hid] at hmain
  exact hmain

/-- Witness for C4 at the concrete line `"2001:db8::1"`. -/
theorem c4_verbatim_stripped_witness :
    pyStrip "2001:db8::1".toList ≠ [] ∧
    (pyStrip "2001:db8::1".toList).headD ' ' ≠ '#' ∧
    processLine "2001:db8::1".toList = some "2001:db8::1\n".toList :=
  ⟨by decide, by decide,
    by
      have h := (c4_verbatim_stripped "2001:db8::1".toList (by decide) (by decide)).2
        (by decide)
      simpa using h⟩

/-! ## Hex rendering lemmas -/

theorem toHexAux_length_le (fuel : Nat) :
    ∀ n k, n < 16 ^ k → (toHexAux fuel n).length ≤ k := by
  induction fuel with
  | zero => intro n k _; simp [toHexAux]
  | succ fuel ih =>
    intro n k hk
    match n with
    | 0 => simp [toHexAux]
    | n + 1 =>
      match k with
      | 0 => omega
      | k + 1 =>
        have hdiv : (n + 1) / 16 < 16 ^ k := by
          have h16 : (16 : Nat) ^ (k + 1) = 16 * 16 ^ k := by ring
          omega
        have := ih ((n + 1) / 16) k hdiv
        simp only [toHexAux, List.length_append, List.length_cons, List.length_nil]
        omega

theorem toHexAux_chars (fuel : Nat) :
    ∀ n c, c ∈ toHexAux fuel n → ∃ d, d < 16 ∧ c = hexDigChar d := by
  induction fuel with
  | zero => intro n c hc; simp [toHexAux] at hc
  | succ fuel ih =>
    intro n c hc
    match n with
    | 0 => simp [toHexAux] at hc
    | n + 1 =>
      simp only [toHexAux, List.mem_append, List.mem_singleton] at hc
      rcases hc with hc | hc
      · exact ih _ c hc
      · exact ⟨(n + 1) % 16, Nat.mod_lt _ (by omega), hc⟩

theorem hexNoPad_length_le (n : Nat) (h : n < 65536) : (hexNoPad n).length ≤ 4 := by
  unfold hexNoPad
  split
  · simp
  · exact toHexAux_length_le n n 4 (by norm_num; omega)

theorem hexNoPad_chars (n : Nat) (c : Char) (hc : c ∈ hexNoPad n) :
    ∃ d, d < 16 ∧ c = hexDigChar d := by
  unfold hexNoPad at hc
  split at hc
  · simp at hc
    exact ⟨0, by omega, by simp [hc]; rfl⟩
  · exact toHexAux_chars n n c hc

theorem hex4_length (n : Nat) (h : n < 65536) : (hex4 n).length = 4 := by
  have := hexNoPad_length_le n h
  simp only [hex4, List.length_append, List.length_replicate]
  omega

theorem hex4_chars (n : Nat) (c : Char) (hc : c ∈ hex4 n) :
    ∃ d, d < 16 ∧ c = hexDigChar d := by
  simp only [hex4, List.mem_append, List.mem_replicate] at hc
  rcases hc with hc | hc
  · exact ⟨0, by omega, by simp [hc.2]; rfl⟩
  · exact hexNoPad_chars n c hc

theorem hexDigChar_lower (d : Nat) (hd : d < 16) :
    ((48 ≤ (hexDigChar d).toNat && (hexDigChar d).toNat ≤ 57) ||
     (97 ≤ (hexDigChar d).toNat && (hexDigChar d).toNat ≤ 102)) = true := by
  interval_cases d <;> decide

/-! ## C9: decode drops control and out-of-range ids -/

/-- C9: the part-collecting loop of `decode` keeps exactly the ids in
`[0, 65535]` that are not control-token ids — every control id and
every out-of-range id (negative or at least 65536 and unrecognized)
contributes nothing — and each kept id is rendered as its 4-hex-digit
lowercase group. -/
theorem c9_decode_drops (ids : List Int) :
    decodeParts ids =
      (ids.filter (fun i => ¬ isSpecialId i ∧ 0 ≤ i ∧ i ≤ 65535)).map
        (fun i => hex4 i.toNat) ∧
    (∀ i : Int, 0 ≤ i → i ≤ 65535 →
      (hex4 i.toNat).length = 4 ∧
      (hex4 i.toNat).all
        (fun c => (48 ≤ c.toNat && c.toNat ≤ 57) ||
                  (97 ≤ c.toNat && c.toNat ≤ 102))) := by
  constructor
  · induction ids with
    | nil => simp [decodeParts]
    | cons a t ih =>
      by_cases hs : isSpecialId a
      · simp [decodeParts, hs, ih]
      · by_cases hr : 0 ≤ a ∧ a ≤ 65535
        · simp [decodeParts, hs, hr.1, hr.2, ih]
        · rcases not_and_or.mp hr with hr' | hr' <;>
            simp [decodeParts, hs, hr', ih]
  · intro i h0 h1
    have hlt : i.toNat < 65536 := by omega
    refine ⟨hex4_length i.toNat hlt, ?_⟩
    rw [List.all_eq_true]
    intro c hc
    obtain ⟨d, hd, rfl⟩ := hex4_chars i.toNat c hc
    exact hexDigChar_lower d hd

/-- Witness for C9 at a concrete id list holding a control id, a
negative id, an unrecognized large id and two in-range ids. -/
theorem c9_decode_drops_witness :
    decodeParts [65536, -3, 70000, 0, 65535] =
      (([65536, -3, 70000, 0, 65535] : List Int).filter
        (fun i => ¬ isSpecialId i ∧ 0 ≤ i ∧ i ≤ 65535)).map
        (fun i => hex4 i.toNat) ∧
    (hex4 (8193 : Int).toNat).length = 4 :=
  ⟨(c9_decode_drops [65536, -3, 70000, 0, 65535]).1,
   ((c9_decode_drops []).2 8193 (by decide) (by decide)).1⟩

/-! ## Scanner lemmas -/

/-- The per-address score a deterministic probe yields. -/
def probeScore (probe : String → ProbeOutcome) (ip : String) : ℚ :=
  if pingSingle (probe ip) then 1 else 0

theorem buildStatus_fold (probe : String → ProbeOutcome) :
    ∀ (l : List String) (acc : List (String × ℚ)),
      l.foldl (fun m ip => (ip, if pingSingle (probe ip) then (1 : ℚ) else 0) :: m) acc =
        (l.map (fun ip => (ip, probeScore probe ip))).reverse ++ acc := by
  intro l
  induction l with
  | nil => simp
  | cons a t ih =>
    intro acc
    simp [List.foldl_cons, ih, probeScore]

theorem dictGet_of_values (f : String → ℚ) :
    ∀ (l : List (String × ℚ)) (ip : String),
      (∀ x ∈ l, x.2 = f x.1) → ip ∈ l.map Prod.fst →
      dictGet ip l = some (f ip) := by
  intro l
  induction l with
  | nil => intro ip _ h; simp at h
  | cons a t ih =>
    intro ip hv hm
    by_cases he : a.1 = ip
    · have : a.2 = f a.1 := hv a (List.mem_cons_self a t)
      simp [dictGet, he, this, he ▸ this]
    · have hm' : ip ∈ t.map Prod.fst := by
        simp only [List.map_cons, List.mem_cons] at hm
        exact hm.resolve_left (fun h => he h.symm)
      simp only [dictGet, if_neg he]
      exact ih ip (fun x hx => hv x (List.mem_cons_of_mem a hx)) hm'

/-- `verify_batch` reads the probe's score off in input order, whatever
the completion order of the futures was. -/
theorem verifyBatch_eq_map (probe : String → ProbeOutcome)
    (completions ipList : List String)
    (h : ∀ ip ∈ ipList, ip ∈ completions) :
    verifyBatch probe completions ipList = ipList.map (probeScore probe) := by
  unfold verifyBatch buildStatus
  rw [buildStatus_fold probe completions []]
  apply List.map_congr_left
  intro ip hip
  have hv : ∀ x ∈ ((completions.map (fun ip => (ip, probeScore probe ip))).reverse ++ []),
      x.2 = probeScore probe x.1 := by
    intro x hx
    simp only [List.append_nil, List.mem_reverse, List.mem_map] at hx
    obtain ⟨y, _, rfl⟩ := hx
    rfl
  have hm : ip ∈ ((completions.map (fun ip => (ip, probeScore probe ip))).reverse ++ []).map
      Prod.fst := by
    simp only [List.append_nil, List.map_reverse, List.map_map, List.mem_reverse,
      List.mem_map, Function.comp]
    exact ⟨ip, h ip hip, rfl⟩
  rw [dictGet_of_values (probeScore probe) _ ip hv hm]
  simp

/-! ## C2: scores in input order, independent of completion order -/

/-- C2: for every input list, `verify_batch` returns one score per
input address, the i-th score being the probe's liveness score of the
i-th input (0.0 or 1.0), for every completion order of the concurrent
probes (modelled as an arbitrary permutation of the input list). -/
theorem c2_order_preserved (probe : String → ProbeOutcome)
    (completions ipList : List String) (h : completions.Perm ipList) :
    verifyBatch probe completions ipList = ipList.map (probeScore probe) ∧
    (verifyBatch probe completions ipList).length = ipList.length ∧
    ∀ s ∈ verifyBatch probe completions ipList, s = 0 ∨ s = 1 := by
  have hmem : ∀ ip ∈ ipList, ip ∈ completions := fun ip hip => h.symm.subset hip
  have heq := verifyBatch_eq_map probe completions ipList hmem
  refine ⟨heq, by rw [heq]; simp, ?_⟩
  rw [heq]
  intro s hs
  simp only [List.mem_map] at hs
  obtain ⟨ip, _, rfl⟩ := hs
  unfold probeScore
  split <;> simp

/-- Witness for C2: two addresses whose probes complete in reversed
order still score in input order. -/
theorem c2_order_preserved_witness :
    verifyBatch (fun ip => if ip = "2001:db8::1" then .success else .timeout)
      ["2400:3200::1", "2001:db8::1"] ["2001:db8::1", "2400:3200::1"] =
      [1, 0] := by
  have h := (c2_order_preserved
    (fun ip => if ip = "2001:db8::1" then .success else .timeout)
    ["2400:3200::1", "2001:db8::1"] ["2001:db8::1", "2400:3200::1"]
    (by decide)).1
  rw [h]
  decide

/-! ## C3: individual probe failure never fails the batch -/

/-- C3: a probe that exits nonzero or times out is caught inside
`_ping_single` and contributes score 0.0 for its own address only;
`verify_batch` still returns a full-length result list. -/
theorem c3_failure_isolated (probe : String → ProbeOutcome)
    (completions ipList : List String) (h : completions.Perm ipList) :
    (verifyBatch probe completions ipList).length = ipList.length ∧
    (∀ i, i < ipList.length →
      (probe (ipList.getD i "") = .exitFailure ∨ probe (ipList.getD i "") = .timeout) →
      (verifyBatch probe completions ipList).getD i 1 = 0) := by
  have hmem : ∀ ip ∈ ipList, ip ∈ completions := fun ip hip => h.symm.subset hip
  have heq := verifyBatch_eq_map probe completions ipList hmem
  refine ⟨by rw [heq]; simp, ?_⟩
  intro i hi hfail
  rw [heq]
  rw [List.getD_eq_getElem?_getD, List.getElem?_map]
  have hgd : ipList[i]? = some (ipList.getD i "") := by
    rw [List.getD_eq_getElem?_getD, List.getElem?_eq_getElem hi]
    rfl
  rw [hgd]
  rcases hfail with hf | hf <;>
    simp [probeScore, pingSingle, ← List.getD_eq_getElem?_getD, hf]

/-- Witness for C3: a timed-out probe scores 0.0 without affecting the
other address. -/
theorem c3_failure_isolated_witness :
    (verifyBatch (fun ip => if ip = "::1" then .timeout else .success)
      ["::1", "::2"] ["::1", "::2"]).length = 2 ∧
    (verifyBatch (fun ip => if ip = "::1" then .timeout else .success)
      ["::1", "::2"] ["::1", "::2"]).getD 0 1 = 0 :=
  ⟨(c3_failure_isolated (fun ip => if ip = "::1" then .timeout else .success)
      ["::1", "::2"] ["::1", "::2"] (by decide)).1,
   (c3_failure_isolated (fun ip => if ip = "::1" then .timeout else .success)
      ["::1", "::2"] ["::1", "::2"] (by decide)).2 0 (by decide) (by decide)⟩

/-! ## Chunking lemmas -/

theorem chunksOfAux_join (c : Nat) (hc : 0 < c) :
    ∀ (fuel : Nat) (l : List α), l.length ≤ fuel →
      (chunksOfAux c fuel l).flatten = l := by
  intro fuel
  induction fuel with
  | zero =>
    intro l hl
    have : l = [] := List.length_eq_zero.mp (by omega)
    simp [this, chunksOfAux]
  | succ fuel ih =>
    intro l hl
    match l with
    | [] => simp [chunksOfAux]
    | a :: t =>
      have hdrop : ((a :: t).drop c).length ≤ fuel := by
        simp only [List.length_drop, List.length_cons] at *
        omega
      simp only [chunksOfAux, List.flatten_cons, ih _ hdrop, List.take_append_drop]

theorem ceilDiv_succ (c n : Nat) (hc : 0 < c) (hn : 0 < n) :
    (n + c - 1) / c = (n - 1) / c + 1 := by
  have h : n + c - 1 = (n - 1) + c := by omega
  rw [h, Nat.add_div_right _ hc]

theorem chunksOfAux_length (c : Nat) (hc : 0 < c) :
    ∀ (fuel : Nat) (l : List α), l.length ≤ fuel →
      (chunksOfAux c fuel l).length = (l.length + c - 1) / c := by
  have hc1 : (c - 1) / c = 0 := Nat.div_eq_of_lt (by omega)
  intro fuel
  induction fuel with
  | zero =>
    intro l hl
    have : l = [] := List.length_eq_zero.mp (by omega)
    subst this
    simp [chunksOfAux, hc1]
  | succ fuel ih =>
    intro l hl
    match l with
    | [] => simp [chunksOfAux, hc1]
    | a :: t =>
      have hdrop : ((a :: t).drop c).length ≤ fuel := by
        simp only [List.length_drop, List.length_cons] at *
        omega
      simp only [chunksOfAux, List.length_cons, ih _ hdrop, List.length_drop]
      rw [ceilDiv_succ c (t.length + 1) hc (by omega)]
      rcases le_or_lt (t.length + 1) c with hsmall | hbig
      · rw [Nat.sub_eq_zero_of_le hsmall]
        simp only [Nat.zero_add, hc1]
        rw [Nat.div_eq_of_lt (show t.length + 1 - 1 < c by omega)]
      · rw [ceilDiv_succ c (t.length + 1 - c) hc (by omega)]
        rw [Nat.div_eq_sub_div hc (show c ≤ t.length + 1 - 1 by omega)]
        have h2 : t.length + 1 - c - 1 = t.length + 1 - 1 - c := by omega
        rw [h2]

theorem chunksOfAux_nil (c fuel : Nat) : chunksOfAux c fuel ([] : List α) = [] := by
  cases fuel <;> rfl

theorem chunksOfAux_ne_nil_mem (c : Nat) (hc : 0 < c) :
    ∀ (fuel : Nat) (l : List α), ∀ ch ∈ chunksOfAux c fuel l, ch ≠ [] := by
  intro fuel
  induction fuel with
  | zero => intro l ch hch; simp [chunksOfAux] at hch
  | succ fuel ih =>
    intro l ch hch
    match l with
    | [] => simp [chunksOfAux] at hch
    | a :: t =>
      simp only [chunksOfAux, List.mem_cons] at hch
      rcases hch with rfl | hch
      · simp [List.take_eq_nil_iff]
        omega
      · exact ih _ ch hch

theorem chunksOfAux_of_ne_nil (c : Nat) (fuel : Nat) (l : List α)
    (hl : l ≠ []) (hf : 0 < fuel) : chunksOfAux c fuel l ≠ [] := by
  match fuel, l with
  | fuel + 1, a :: t => simp [chunksOfAux]

theorem chunksOfAux_dropLast (c : Nat) (hc : 0 < c) :
    ∀ (fuel : Nat) (l : List α), l.length ≤ fuel →
      ∀ ch ∈ (chunksOfAux c fuel l).dropLast, ch.length = c := by
  intro fuel
  induction fuel with
  | zero =>
    intro l hl
    have : l = [] := List.length_eq_zero.mp (by omega)
    simp [this, chunksOfAux]
  | succ fuel ih =>
    intro l hl ch hch
    match l with
    | [] => simp [chunksOfAux] at hch
    | a :: t =>
      simp only [chunksOfAux] at hch
      rcases hrest : chunksOfAux c fuel ((a :: t).drop c) with _ | ⟨r, rs⟩
      · rw [hrest] at hch
        simp at hch
      · rw [hrest, List.dropLast_cons_of_ne_nil (by simp), List.mem_cons] at hch
        have hdropne : (a :: t).drop c ≠ [] := by
          intro hnil
          rw [hnil, chunksOfAux_nil] at hrest
          exact List.noConfusion hrest
        have hclen : c < (a :: t).length := by
          by_contra hcon
          exact hdropne (List.drop_eq_nil_of_le (by omega))
        rcases hch with rfl | hch
        · simp only [List.length_take]
          omega
        · have hdrop : ((a :: t).drop c).length ≤ fuel := by
            simp only [List.length_drop, List.length_cons] at *
            omega
          have := ih ((a :: t).drop c) hdrop ch
          rw [hrest] at this
          exact this hch

theorem chunksOfAux_getLast (c : Nat) (hc : 0 < c) :
    ∀ (fuel : Nat) (l : List α), l.length ≤ fuel → l ≠ [] →
      ∃ ch, (chunksOfAux c fuel l).getLast? = some ch ∧
        ch.length = (if l.length % c = 0 then c else l.length % c) := by
  intro fuel
  induction fuel with
  | zero =>
    intro l hl hne
    exact absurd (List.length_eq_zero.mp (by omega)) hne
  | succ fuel ih =>
    intro l hl hne
    match l with
    | a :: t =>
      simp only [chunksOfAux]
      by_cases hdropnil : (a :: t).drop c = []
      · have hlen : (a :: t).length ≤ c := by
          by_contra hcon
          have : (a :: t).drop c ≠ [] := by
            apply List.ne_nil_of_length_pos
            simp only [List.length_drop]
            omega
          exact this hdropnil
        rw [hdropnil, chunksOfAux_nil]
        refine ⟨(a :: t).take c, rfl, ?_⟩
        have h1 : ((a :: t).take c).length = (a :: t).length := by
          simp only [List.length_take]
          omega
        have hpos : 0 < (a :: t).length := by simp
        rw [h1]
        by_cases hmod : (a :: t).length % c = 0
        · have : (a :: t).length = c := by
            rcases Nat.lt_or_ge (a :: t).length c with hlt | hge
            · rw [Nat.mod_eq_of_lt hlt] at hmod
              omega
            · omega
          simp [hmod, this]
        · have hlt : (a :: t).length < c := by
            rcases Nat.lt_or_ge (a :: t).length c with hlt | hge
            · exact hlt
            · have : (a :: t).length = c := by omega
              rw [this, Nat.mod_self] at hmod
              exact absurd rfl hmod
          rw [if_neg hmod, Nat.mod_eq_of_lt hlt]
      · have hclen : c < (a :: t).length := by
          by_contra hcon
          exact hdropnil (List.drop_eq_nil_of_le (by omega))
        have hdrop : ((a :: t).drop c).length ≤ fuel := by
          simp only [List.length_drop, List.length_cons] at *
          omega
        obtain ⟨ch, hch, hchlen⟩ := ih ((a :: t).drop c) hdrop hdropnil
        have hrestne : chunksOfAux c fuel ((a :: t).drop c) ≠ [] := by
          intro hnil
          rw [hnil] at hch
          exact Option.noConfusion hch
        refine ⟨ch, ?_, ?_⟩
        · obtain ⟨r, rs, hr⟩ := List.exists_cons_of_ne_nil hrestne
          rw [hr, List.getLast?_cons_cons, ← hr, hch]
        · rw [hchlen, List.length_drop]
          have : ((a :: t).length - c) % c = (a :: t).length % c :=
            (Nat.mod_eq_sub_mod (by omega)).symm
          rw [this]

/-! ## C6: shard sizing -/

/-- C6: with chunk size `c > 0` and a deduplicated shuffled sequence
`l` of `n` elements, the reducer writes `⌈n / c⌉` shards; every shard
except the last has exactly `c` rows; when `c` does not divide `n` the
final shard has `n % c` rows, and when it does every shard (the final
one included) has `c` rows; no shard is empty (an undersized final
chunk is still written); and the shards' rows concatenate back to `l`,
so the total row count is `n`. -/
theorem c6_shard_sizing (c : Nat) (hc : 0 < c) (l : List α) :
    (chunksOf c l).length = (l.length + c - 1) / c ∧
    (∀ ch ∈ (chunksOf c l).dropLast, ch.length = c) ∧
    (l.length % c ≠ 0 →
      ∃ ch, (chunksOf c l).getLast? = some ch ∧ ch.length = l.length % c) ∧
    (l.length % c = 0 → ∀ ch ∈ chunksOf c l, ch.length = c) ∧
    (∀ ch ∈ chunksOf c l, ch ≠ []) ∧
    (chunksOf c l).flatten = l := by
  have hcne : c ≠ 0 := by omega
  refine ⟨?_, ?_, ?_, ?_, ?_, ?_⟩
  · rw [chunksOf, if_neg hcne]
    exact chunksOfAux_length c hc l.length l le_rfl
  · rw [chunksOf, if_neg hcne]
    exact chunksOfAux_dropLast c hc l.length l le_rfl
  · intro hmod
    have hne : l ≠ [] := by
      intro h
      rw [h] at hmod
      simp at hmod
    rw [chunksOf, if_neg hcne]
    obtain ⟨ch, hch, hlen⟩ := chunksOfAux_getLast c hc l.length l le_rfl hne
    rw [if_neg hmod] at hlen
    exact ⟨ch, hch, hlen⟩
  · intro hmod ch hch
    rw [chunksOf, if_neg hcne] at hch
    by_cases hne : l = []
    · rw [hne, chunksOfAux_nil] at hch
      simp at hch
    · obtain ⟨lst, hlst, hlstlen⟩ := chunksOfAux_getLast c hc l.length l le_rfl hne
      rw [if_pos hmod] at hlstlen
      have hcne2 : chunksOfAux c l.length l ≠ [] := by
        intro h
        rw [h] at hlst
        exact Option.noConfusion hlst
      have hdecomp := List.dropLast_append_getLast hcne2
      rw [← hdecomp, List.mem_append, List.mem_singleton] at hch
      rcases hch with h | h
      · exact chunksOfAux_dropLast c hc l.length l le_rfl ch h
      · have hlsteq : (chunksOfAux c l.length l).getLast hcne2 = lst := by
          rw [List.getLast?_eq_getLast _ hcne2] at hlst
          exact Option.some_inj.mp hlst
        rw [h, hlsteq]
        exact hlstlen
  · rw [chunksOf, if_neg hcne]
    exact chunksOfAux_ne_nil_mem c hc l.length l
  · rw [chunksOf, if_neg hcne]
    exact chunksOfAux_join c hc l.length l le_rfl

/-- Witness for C6 at chunk size 3 over 8 rows: 3 shards, sizes 3,3,2. -/
theorem c6_shard_sizing_witness :
    (chunksOf 3 [0, 1, 2, 3, 4, 5, 6, 7]).length = 3 ∧
    (∀ ch ∈ (chunksOf 3 [0, 1, 2, 3, 4, 5, 6, 7]).dropLast, ch.length = 3) ∧
    (chunksOf 3 [0, 1, 2, 3, 4, 5, 6, 7]).flatten = [0, 1, 2, 3, 4, 5, 6, 7] := by
  have h := c6_shard_sizing 3 (by decide) [0, 1, 2, 3, 4, 5, 6, 7]
  exact ⟨h.1.trans (by norm_num), h.2.1, h.2.2.2.2.2⟩

/-! ## C7: no duplicate rows within a bucket -/

theorem uniqueIps_nodup (rawLines : List (List Char)) :
    (uniqueIps rawLines).Nodup := by
  have h : ∀ (lines : List (List Char)) (acc : List (List Char)), acc.Nodup →
      (lines.foldl (fun acc line =>
        match expand_ipv6 (pyStrip line) with
        | some e => if e ∈ acc then acc else acc ++ [e]
        | none => acc) acc).Nodup := by
    intro lines
    induction lines with
    | nil => intro acc hacc; exact hacc
    | cons a t ih =>
      intro acc hacc
      simp only [List.foldl_cons]
      apply ih
      cases hexp : expand_ipv6 (pyStrip a) with
      | none => simpa [hexp] using hacc
      | some e =>
        by_cases hmem : e ∈ acc
        · simpa [hexp, hmem] using hacc
        · simp only [hexp, if_neg hmem]
          rw [List.nodup_append]
          refine ⟨hacc, List.nodup_singleton e, fun x hx hxe => ?_⟩
          rw [List.mem_singleton.mp hxe] at hx
          exact hmem hx
  exact h rawLines [] List.nodup_nil

/-- C7: the rows the reducer writes for one bucket — the flattening of
the shards cut from any permutation (the set's iteration order plus
the shuffle) of the deduplicated set — are pairwise distinct, in the
same shard or across shards. -/
theorem c7_dedup_within_bucket (rawLines : List (List Char))
    (shuffled : List (List Char)) (c : Nat)
    (hperm : shuffled.Perm (uniqueIps rawLines)) (hc : 0 < c) :
    ((chunksOf c shuffled).flatten).Nodup ∧
    (chunksOf c shuffled).flatten = shuffled := by
  have hflat : (chunksOf c shuffled).flatten = shuffled := by
    rw [chunksOf, if_neg (by omega)]
    exact chunksOfAux_join c hc _ _ le_rfl
  rw [hflat]
  exact ⟨hperm.nodup_iff.mpr (uniqueIps_nodup rawLines), rfl⟩

/-- Witness for C7: a bucket with a duplicate pair written in two
different textual forms plus a malformed line, shuffled by reversal,
cut into 1-row shards. -/
theorem c7_dedup_within_bucket_witness :
    ((chunksOf 1
        ((uniqueIps ["::1".toList, "0::1".toList, "junk".toList, "::2".toList]).reverse)).flatten).Nodup :=
  (c7_dedup_within_bucket ["::1".toList, "0::1".toList, "junk".toList, "::2".toList]
    ((uniqueIps ["::1".toList, "0::1".toList, "junk".toList, "::2".toList]).reverse)
    1 (List.reverse_perm _) (by decide)).1

/-! ## C5: conversation rendering -/

theorem render_fold :
    ∀ (conv : List Message) (acc : List Int × List Nat),
      conv.foldl (fun (acc : List Int × List Nat) (message : Message) =>
        let encodedIp := encodeOne message.content.toList none none
        if message.role = "user" then
          (acc.1 ++ encodedIp, acc.2 ++ List.replicate encodedIp.length 0)
        else if message.role = "assistant" then
          (acc.1 ++ encodedIp ++ [eos_token_id],
           acc.2 ++ List.replicate encodedIp.length 1 ++ [1])
        else acc) acc =
      (acc.1 ++ (conv.map msgIds).flatten, acc.2 ++ (conv.map msgMask).flatten) := by
  intro conv
  induction conv with
  | nil => intro acc; simp
  | cons m t ih =>
    intro acc
    simp only [List.foldl_cons, List.map_cons, List.flatten_cons]
    rw [ih]
    by_cases hu : m.role = "user"
    · simp [msgIds, msgMask, hu, List.append_assoc]
    · by_cases ha : m.role = "assistant"
      · simp [msgIds, msgMask, hu, ha, List.append_assoc]
      · simp [msgIds, msgMask, hu, ha]

theorem msg_len_eq (m : Message) : (msgIds m).length = (msgMask m).length := by
  unfold msgIds msgMask
  by_cases hu : m.role = "user"
  · simp [hu]
  · by_cases ha : m.role = "assistant" <;> simp [hu, ha]

theorem renderSpec_len_eq (conv : List Message) :
    (renderIdsSpec conv).length = (renderMaskSpec conv).length := by
  simp only [renderIdsSpec, renderMaskSpec, List.length_cons]
  induction conv with
  | nil => rfl
  | cons m t ih =>
    simp only [List.map_cons, List.flatten_cons, List.length_append, msg_len_eq m]
    omega

/-- C5: `render_conversation` returns the token sequence and mask the
specification describes — a leading start token with mask 0, each
user-role body with mask 0, each assistant-role body with mask 1
followed by an eos with mask 1 — both truncated at the tail to the
maximum length, of equal lengths bounded by that maximum. -/
theorem c5_render_conversation (conv : List Message) (m : Nat) :
    renderConversation conv m =
      ((renderIdsSpec conv).take m, (renderMaskSpec conv).take m) ∧
    (renderConversation conv m).1.length = (renderConversation conv m).2.length ∧
    (renderConversation conv m).1.length ≤ m := by
  have heq : renderConversation conv m =
      ((renderIdsSpec conv).take m, (renderMaskSpec conv).take m) := by
    dsimp only [renderConversation]
    rw [render_fold conv ([bos_token_id], [0])]
    simp [renderIdsSpec, renderMaskSpec]
  refine ⟨heq, ?_, ?_⟩
  · rw [heq]
    simp [List.length_take, renderSpec_len_eq conv]
  · rw [heq]
    simp [List.length_take]

/-! ## Hex value round-trip lemmas -/

theorem hexDigVal_hexDigChar (d : Nat) (hd : d < 16) : hexDigVal (hexDigChar d) = d := by
  interval_cases d <;> decide

theorem isHexDig_hexDigChar (d : Nat) (hd : d < 16) : isHexDig (hexDigChar d) = true := by
  interval_cases d <;> decide

theorem hexDigChar_ne (d : Nat) (hd : d < 16) :
    hexDigChar d ≠ ':' ∧ hexDigChar d ≠ '.' ∧ hexDigChar d ≠ '%' ∧
    hexDigChar d ≠ '/' ∧ pyWhitespace (hexDigChar d) = false := by
  interval_cases d <;> decide

theorem hexVal_append_digit (l : List Char) (c : Char) :
    hexVal (l ++ [c]) = 16 * hexVal l + hexDigVal c := by
  simp [hexVal, List.foldl_append]

theorem toHexAux_hexVal : ∀ fuel n, n ≤ fuel → hexVal (toHexAux fuel n) = n := by
  intro fuel
  induction fuel with
  | zero =>
    intro n h
    have : n = 0 := by omega
    subst this
    decide
  | succ fuel ih =>
    intro n h
    match n with
    | 0 => simp [toHexAux, hexVal]
    | n + 1 =>
      have hdiv : (n + 1) / 16 ≤ fuel := by
        have : (n + 1) / 16 < n + 1 := Nat.div_lt_self (by omega) (by omega)
        omega
      simp only [toHexAux, hexVal_append_digit, ih _ hdiv]
      rw [hexDigVal_hexDigChar _ (Nat.mod_lt _ (by omega))]
      omega

theorem hexNoPad_hexVal (n : Nat) : hexVal (hexNoPad n) = n := by
  unfold hexNoPad
  split
  · next h => subst h; decide
  · exact toHexAux_hexVal n n le_rfl

theorem hexNoPad_ne_nil (n : Nat) : hexNoPad n ≠ [] := by
  unfold hexNoPad
  split
  · simp
  · next h =>
    match n, h with
    | n + 1, _ => simp [toHexAux]

theorem hexNoPad_zero_iff (n : Nat) : hexNoPad n = ['0'] ↔ n = 0 := by
  constructor
  · intro h
    have := hexNoPad_hexVal n
    rw [h, show hexVal ['0'] = 0 by decide] at this
    exact this.symm
  · intro h
    subst h
    rfl

theorem hexVal_replicate_zero (k : Nat) (l : List Char) :
    hexVal (List.replicate k '0' ++ l) = hexVal l := by
  have hz : ∀ k, List.foldl (fun a c => 16 * a + hexDigVal c) 0 (List.replicate k '0') = 0 := by
    intro k
    induction k with
    | zero => rfl
    | succ k ih =>
      have h0 : hexDigVal '0' = 0 := by decide
      simp [List.replicate_succ, h0, ih]
  simp [hexVal, List.foldl_append, hz k]

theorem hex4_hexVal (n : Nat) : hexVal (hex4 n) = n := by
  simp only [hex4]
  rw [hexVal_replicate_zero, hexNoPad_hexVal]

theorem hex4_ne_nil (n : Nat) : hex4 n ≠ [] := by
  simp only [hex4]
  intro h
  rcases List.append_eq_nil.mp h with ⟨-, h2⟩
  exact hexNoPad_ne_nil n h2

theorem hexDigVal_lt (c : Char) (h : isHexDig c = true) : hexDigVal c < 16 := by
  simp only [isHexDig, Bool.or_eq_true, Bool.and_eq_true, decide_eq_true_eq] at h
  unfold hexDigVal
  split
  · next h1 =>
    simp only [Bool.and_eq_true, decide_eq_true_eq] at h1
    omega
  · split
    · next h2 =>
      simp only [Bool.and_eq_true, decide_eq_true_eq] at h2
      omega
    · next h1 h2 =>
      simp only [Bool.and_eq_true, decide_eq_true_eq, not_and, not_le] at h1 h2
      omega

theorem hexVal_foldl_lt :
    ∀ (cs : List Char) (a : Nat), (∀ c ∈ cs, isHexDig c = true) →
      List.foldl (fun a c => 16 * a + hexDigVal c) a cs < (a + 1) * 16 ^ cs.length := by
  intro cs
  induction cs with
  | nil => intro a _; simp
  | cons c cs ih =>
    intro a h
    have hc : hexDigVal c < 16 := hexDigVal_lt c (h c (List.mem_cons_self c cs))
    have step := ih (16 * a + hexDigVal c) (fun x hx => h x (List.mem_cons_of_mem c hx))
    simp only [List.foldl_cons, List.length_cons]
    calc List.foldl (fun a c => 16 * a + hexDigVal c) (16 * a + hexDigVal c) cs
        < (16 * a + hexDigVal c + 1) * 16 ^ cs.length := step
      _ ≤ (a + 1) * 16 ^ (cs.length + 1) := by
          rw [pow_succ]
          have h1 : 16 * a + hexDigVal c + 1 ≤ (a + 1) * 16 := by omega
          calc (16 * a + hexDigVal c + 1) * 16 ^ cs.length
              ≤ ((a + 1) * 16) * 16 ^ cs.length := Nat.mul_le_mul_right _ h1
            _ = (a + 1) * (16 ^ cs.length * 16) := by ring

theorem hexVal_lt (cs : List Char) (h : ∀ c ∈ cs, isHexDig c = true) :
    hexVal cs < 16 ^ cs.length := by
  have := hexVal_foldl_lt cs 0 h
  simpa [hexVal] using this

/-! ## Split/join lemmas -/

theorem splitCh_ne_nil (c : Char) (cs : List Char) : splitCh c cs ≠ [] := by
  induction cs with
  | nil => simp [splitCh]
  | cons x xs ih =>
    unfold splitCh
    split
    · simp
    · split <;> simp

theorem splitCh_single (c : Char) (g : List Char) (hg : ∀ x ∈ g, x ≠ c) :
    splitCh c g = [g] := by
  induction g with
  | nil => rfl
  | cons x xs ih =>
    have hx : x ≠ c := hg x (List.mem_cons_self x xs)
    have ih' := ih (fun y hy => hg y (List.mem_cons_of_mem x hy))
    simp [splitCh, hx, ih']

theorem splitCh_append (c : Char) (g rest : List Char) (hg : ∀ x ∈ g, x ≠ c) :
    splitCh c (g ++ c :: rest) = g :: splitCh c rest := by
  induction g with
  | nil => simp [splitCh]
  | cons x xs ih =>
    have hx : x ≠ c := hg x (List.mem_cons_self x xs)
    have ih' := ih (fun y hy => hg y (List.mem_cons_of_mem x hy))
    simp [splitCh, hx, ih']

theorem splitCh_joinCh (c : Char) :
    ∀ (gs : List (List Char)), gs ≠ [] → (∀ g ∈ gs, ∀ x ∈ g, x ≠ c) →
      splitCh c (joinCh c gs) = gs := by
  intro gs
  induction gs with
  | nil => intro h; exact absurd rfl h
  | cons g gs ih =>
    intro _ hall
    match gs with
    | [] => exact splitCh_single c g (hall g (List.mem_cons_self g []))
    | g' :: gs' =>
      have hstep : joinCh c (g :: g' :: gs') = g ++ c :: joinCh c (g' :: gs') := by
        simp [joinCh]
      rw [hstep, splitCh_append c g _ (hall g (List.mem_cons_self g _)),
        ih (by simp) (fun p hp x hx => hall p (List.mem_cons_of_mem g hp) x hx)]

theorem joinCh_splitCh (c : Char) : ∀ cs, joinCh c (splitCh c cs) = cs := by
  intro cs
  induction cs with
  | nil => rfl
  | cons x xs ih =>
    by_cases hx : x = c
    · subst hx
      have hsp : splitCh x (x :: xs) = [] :: splitCh x xs := by simp [splitCh]
      obtain ⟨r, rs, hr⟩ := List.exists_cons_of_ne_nil (splitCh_ne_nil x xs)
      rw [hsp, hr]
      have ih' : joinCh x (r :: rs) = xs := by rw [← hr]; exact ih
      simp [joinCh, ih']
    · obtain ⟨r, rs, hr⟩ := List.exists_cons_of_ne_nil (splitCh_ne_nil c xs)
      have hsp : splitCh c (x :: xs) = (x :: r) :: rs := by
        simp [splitCh, hx, hr]
      rw [hsp]
      have ih' : joinCh c (r :: rs) = xs := by rw [← hr]; exact ih
      match rs with
      | [] =>
        have : r = xs := by simpa [joinCh] using ih'
        simp [joinCh, this]
      | r' :: rs' =>
        have hstep : joinCh c ((x :: r) :: r' :: rs') =
            (x :: r) ++ c :: joinCh c (r' :: rs') := by simp [joinCh]
        have hstep2 : joinCh c (r :: r' :: rs') = r ++ c :: joinCh c (r' :: rs') := by
          simp [joinCh]
        rw [hstep]
        rw [hstep2] at ih'
        simp [ih']

theorem mem_joinCh (c : Char) :
    ∀ (gs : List (List Char)) (x : Char), x ∈ joinCh c gs →
      x = c ∨ ∃ g ∈ gs, x ∈ g := by
  intro gs
  induction gs with
  | nil => intro x hx; simp [joinCh] at hx
  | cons g gs ih =>
    intro x hx
    match gs with
    | [] =>
      right
      exact ⟨g, List.mem_cons_self g [], by simpa [joinCh] using hx⟩
    | g' :: gs' =>
      rw [show joinCh c (g :: g' :: gs') = g ++ c :: joinCh c (g' :: gs') by simp [joinCh],
        List.mem_append, List.mem_cons] at hx
      rcases hx with hx | hx | hx
      · exact Or.inr ⟨g, List.mem_cons_self g _, hx⟩
      · exact Or.inl hx
      · rcases ih x hx with h | ⟨p, hp, hxp⟩
        · exact Or.inl h
        · exact Or.inr ⟨p, List.mem_cons_of_mem g hp, hxp⟩

theorem joinCh_ne_nil₂ (c : Char) (g g' : List Char) (gs : List (List Char)) :
    joinCh c (g :: g' :: gs) ≠ [] := by
  simp [joinCh]

/-! ## Hextet parsing lemmas -/

theorem parseHextet_of (p : List Char) (hne : p ≠ []) (hlen : p.length ≤ 4)
    (hall : ∀ ch ∈ p, isHexDig ch = true) : parseHextet p = some (hexVal p) := by
  unfold parseHextet
  rw [if_neg (by rw [not_not, List.all_eq_true]; exact hall),
    if_neg (by omega), if_neg hne]

theorem parseHextet_inv (p : List Char) (n : Nat) (h : parseHextet p = some n) :
    p ≠ [] ∧ p.length ≤ 4 ∧ (∀ ch ∈ p, isHexDig ch = true) ∧
    n = hexVal p ∧ n < 65536 := by
  unfold parseHextet at h
  split at h
  · exact Option.noConfusion h
  · split at h
    · exact Option.noConfusion h
    · split at h
      · exact Option.noConfusion h
      · next h1 h2 h3 =>
        have hall : ∀ ch ∈ p, isHexDig ch = true :=
          List.all_eq_true.mp (not_not.mp h1)
        have hlen : p.length ≤ 4 := by omega
        have hn : n = hexVal p := (Option.some_inj.mp h).symm
        refine ⟨h3, hlen, hall, hn, ?_⟩
        have hb := hexVal_lt p hall
        have hpow : (16 : Nat) ^ p.length ≤ 16 ^ 4 :=
          Nat.pow_le_pow_right (by omega) hlen
        subst hn
        calc hexVal p < 16 ^ p.length := hb
          _ ≤ 16 ^ 4 := hpow
          _ = 65536 := by norm_num

theorem parseHextet_hex4 (n : Nat) (h : n < 65536) : parseHextet (hex4 n) = some n := by
  have hall : ∀ ch ∈ hex4 n, isHexDig ch = true := by
    intro ch hch
    obtain ⟨d, hd, rfl⟩ := hex4_chars n ch hch
    exact isHexDig_hexDigChar d hd
  rw [parseHextet_of _ (hex4_ne_nil n) (le_of_eq (hex4_length n h)) hall, hex4_hexVal]

theorem hexNoPad_length_le' (n : Nat) (h : n < 65536) : (hexNoPad n).length ≤ 4 :=
  hexNoPad_length_le n h

theorem parseHextet_hexNoPad (n : Nat) (h : n < 65536) :
    parseHextet (hexNoPad n) = some n := by
  have hall : ∀ ch ∈ hexNoPad n, isHexDig ch = true := by
    intro ch hch
    obtain ⟨d, hd, rfl⟩ := hexNoPad_chars n ch hch
    exact isHexDig_hexDigChar d hd
  rw [parseHextet_of _ (hexNoPad_ne_nil n) (hexNoPad_length_le n h) hall, hexNoPad_hexVal]

theorem parseHextets_map (f : Nat → List Char) :
    ∀ (v : List Nat), (∀ x ∈ v, parseHextet (f x) = some x) →
      parseHextets (v.map f) = some v := by
  intro v
  induction v with
  | nil => intro _; rfl
  | cons x xs ih =>
    intro h
    have hx := h x (List.mem_cons_self x xs)
    have ih' := ih (fun y hy => h y (List.mem_cons_of_mem x hy))
    simp [parseHextets, hx, ih']

theorem parseHextets_inv :
    ∀ (l : List (List Char)) (w : List Nat), parseHextets l = some w →
      w.length = l.length ∧ (∀ x ∈ w, x < 65536) ∧
      ∀ p ∈ l, ∃ m, parseHextet p = some m := by
  intro l
  induction l with
  | nil =>
    intro w h
    have : w = [] := (Option.some_inj.mp h).symm
    subst this
    simp
  | cons p ps ih =>
    intro w h
    unfold parseHextets at h
    cases hp : parseHextet p with
    | none => rw [hp] at h; exact Option.noConfusion h
    | some m =>
      cases hps : parseHextets ps with
      | none => rw [hp, hps] at h; exact Option.noConfusion h
      | some ms =>
        rw [hp, hps] at h
        have hw : w = m :: ms := (Option.some_inj.mp h).symm
        subst hw
        obtain ⟨hlen, hbound, hparse⟩ := ih ms hps
        refine ⟨by simp [hlen], ?_, ?_⟩
        · intro x hx
          rcases List.mem_cons.mp hx with rfl | hx
          · exact (parseHextet_inv p x hp).2.2.2.2
          · exact hbound x hx
        · intro q hq
          rcases List.mem_cons.mp hq with rfl | hq
          · exact ⟨m, hp⟩
          · exact hparse q hq

/-! ## Empty-part scanning lemmas -/

theorem findEmptyIdx_none (l : List (List Char)) (h : ∀ p ∈ l, p ≠ []) :
    ∀ i, findEmptyIdx l i = none := by
  induction l with
  | nil => intro i; rfl
  | cons p ps ih =>
    intro i
    have hp : p.isEmpty = false := by
      rcases p with _ | ⟨q, qs⟩
      · exact absurd rfl (h [] (List.mem_cons_self _ _))
      · rfl
    simp [findEmptyIdx, hp, ih (fun q hq => h q (List.mem_cons_of_mem p hq))]

theorem findEmptyIdx_append (A : List (List Char)) (hA : ∀ p ∈ A, p ≠ [])
    (rest : List (List Char)) :
    ∀ i, findEmptyIdx (A ++ [] :: rest) i = some (i + A.length) := by
  induction A with
  | nil => intro i; simp [findEmptyIdx]
  | cons p A' ih =>
    intro i
    have hp : p.isEmpty = false := by
      rcases p with _ | ⟨q, qs⟩
      · exact absurd rfl (hA [] (List.mem_cons_self _ _))
      · rfl
    have ih' := ih (fun q hq => hA q (List.mem_cons_of_mem p hq)) (i + 1)
    simp only [List.cons_append, findEmptyIdx, hp, Bool.false_eq_true, if_false, ih',
      List.length_cons]
    have harith : i + 1 + A'.length = i + (A'.length + 1) := by omega
    rw [harith] at ih'
    exact ih'

theorem countEmpty_append (A B : List (List Char)) :
    countEmpty (A ++ B) = countEmpty A + countEmpty B := by
  simp [countEmpty, List.filter_append]

theorem countEmpty_eq_zero (A : List (List Char)) (hA : ∀ p ∈ A, p ≠ []) :
    countEmpty A = 0 := by
  rw [countEmpty, List.length_eq_zero, List.filter_eq_nil_iff]
  intro p hp
  rcases p with _ | ⟨q, qs⟩
  · exact absurd rfl (hA [] hp)
  · simp

theorem countEmpty_zero_nonempty (A : List (List Char)) (h : countEmpty A = 0) :
    ∀ p ∈ A, p ≠ [] := by
  rw [countEmpty, List.length_eq_zero, List.filter_eq_nil_iff] at h
  intro p hp hnil
  have := h p hp
  rw [hnil] at this
  simp at this

theorem countEmpty_cons_empty (B : List (List Char)) :
    countEmpty ([] :: B) = 1 + countEmpty B := by
  simp only [countEmpty, List.filter_cons]
  simp
  omega

theorem findEmpty_decomp :
    ∀ (l : List (List Char)) (i j : Nat), findEmptyIdx l i = some j → countEmpty l < 2 →
      ∃ A B, l = A ++ [] :: B ∧ i + A.length = j ∧
        (∀ p ∈ A, p ≠ []) ∧ (∀ p ∈ B, p ≠ []) := by
  intro l
  induction l with
  | nil => intro i j h _; exact Option.noConfusion h
  | cons p ps ih =>
    intro i j h hc
    rcases hp : p.isEmpty with hfalse | htrue
    · rw [findEmptyIdx, hp] at h
      simp only [Bool.false_eq_true, if_false] at h
      have hcount : countEmpty (p :: ps) = countEmpty ps := by
        simp [countEmpty, List.filter_cons, hp]
      rw [hcount] at hc
      obtain ⟨A, B, hl, hj, hA, hB⟩ := ih (i + 1) j h hc
      have hpne : p ≠ [] := by
        intro hnil
        rw [hnil] at hp
        simp at hp
      refine ⟨p :: A, B, by rw [hl]; rfl, by simp; omega, ?_, hB⟩
      intro q hq
      rcases List.mem_cons.mp hq with rfl | hq
      · exact hpne
      · exact hA q hq
    · rw [findEmptyIdx, hp] at h
      simp only [if_true] at h
      have hj : j = i := (Option.some_inj.mp h).symm
      have hpnil : p = [] := List.isEmpty_iff.mp hp
      subst hpnil
      have hcount : countEmpty ([] :: ps) = 1 + countEmpty ps := countEmpty_cons_empty ps
      rw [hcount] at hc
      refine ⟨[], ps, rfl, by simp [hj], by simp, ?_⟩
      exact countEmpty_zero_nonempty ps (by omega)

/-! ## Small list utilities -/

theorem headD_append_left {α : Type} (X Y : List α) (hX : X ≠ []) (d : α) :
    (X ++ Y).headD d = X.headD d := by
  rcases X with _ | ⟨x, xs⟩
  · exact absurd rfl hX
  · rfl

theorem getLastD_append_right {α : Type} (X Y : List α) (hY : Y ≠ []) (d : α) :
    (X ++ Y).getLastD d = Y.getLastD d := by
  rcases Y with _ | ⟨y, ys⟩
  · exact absurd rfl hY
  · rw [List.getLastD_eq_getLast?, List.getLastD_eq_getLast?,
      List.getLast?_append_cons]

theorem getLastD_mem {α : Type} (l : List α) (hl : l ≠ []) (d : α) :
    l.getLastD d ∈ l := by
  rw [List.getLastD_eq_getLast?, List.getLast?_eq_getLast l hl]
  exact List.getLast_mem hl

/-! ## Evaluating `assemble` on the canonical shapes -/

theorem isEmpty_false_of_ne_nil (p : List Char) (h : p ≠ []) : p.isEmpty = false := by
  rcases p with _ | ⟨q, qs⟩
  · exact absurd rfl h
  · rfl

theorem headD_mem {α : Type} (l : List α) (hl : l ≠ []) (d : α) :
    l.headD d ∈ l := by
  rcases l with _ | ⟨x, xs⟩
  · exact absurd rfl hl
  · exact List.mem_cons_self x xs

theorem parseHextets_nonempty (l : List (List Char)) (u : List Nat)
    (h : parseHextets l = some u) : ∀ p ∈ l, p ≠ [] := by
  intro p hp
  obtain ⟨m, hm⟩ := (parseHextets_inv l u h).2.2 p hp
  exact (parseHextet_inv p m hm).1

/-- `assemble` on 8 nonempty parts with no `::`. -/
theorem assemble_noskip (parts : List (List Char)) (u : List Nat)
    (hlen : parts.length = 8) (hparse : parseHextets parts = some u) :
    assemble parts = some u := by
  have hmem := parseHextets_nonempty parts u hparse
  have hne : parts ≠ [] := by
    intro h
    rw [h] at hlen
    simp at hlen
  have hinner : ∀ p ∈ (parts.drop 1).dropLast, p ≠ [] := fun p hp =>
    hmem p (List.mem_of_mem_drop (List.dropLast_subset _ hp))
  have hfind := findEmptyIdx_none _ hinner 0
  have hh : (parts.headD [' ']).isEmpty = false :=
    isEmpty_false_of_ne_nil _ (hmem _ (headD_mem parts hne _))
  have hl : (parts.getLastD [' ']).isEmpty = false :=
    isEmpty_false_of_ne_nil _ (hmem _ (getLastD_mem parts hne _))
  simp only [assemble, hfind, hh, hl, Bool.false_eq_true, if_false, hparse]
  rw [if_neg (not_not.mpr hlen)]

/-- `assemble` on `X ++ [] :: Y` — a `::` strictly inside, nonempty
endpoint parts on both sides. -/
theorem assemble_mid (X Y : List (List Char)) (u w : List Nat)
    (hX : parseHextets X = some u) (hY : parseHextets Y = some w)
    (hXne : X ≠ []) (hYne : Y ≠ []) (hlen : X.length + Y.length ≤ 7) :
    assemble (X ++ [] :: Y) =
      some (u ++ List.replicate (8 - (X.length + Y.length)) 0 ++ w) := by
  have hXnn := parseHextets_nonempty X u hX
  have hYnn := parseHextets_nonempty Y w hY
  obtain ⟨x0, X', rfl⟩ := List.exists_cons_of_ne_nil hXne
  have hlen' : X'.length + Y.length ≤ 6 := by
    simp only [List.length_cons] at hlen
    omega
  have hX'nn : ∀ p ∈ X', p ≠ [] := fun p hp => hXnn p (List.mem_cons_of_mem x0 hp)
  have hYdnn : ∀ p ∈ Y.dropLast, p ≠ [] := fun p hp => hYnn p (List.dropLast_subset Y hp)
  have hx0ne : x0.isEmpty = false :=
    isEmpty_false_of_ne_nil x0 (hXnn x0 (List.mem_cons_self x0 X'))
  have hinner : (List.drop 1 (x0 :: (X' ++ [] :: Y))).dropLast = X' ++ [] :: Y.dropLast := by
    rw [List.drop_succ_cons, List.drop_zero,
      List.dropLast_append_of_ne_nil X' (show ([] : List Char) :: Y ≠ [] by simp),
      List.dropLast_cons_of_ne_nil hYne]
  have hfind : findEmptyIdx (X' ++ [] :: Y.dropLast) 0 = some X'.length := by
    have h := findEmptyIdx_append X' hX'nn Y.dropLast 0
    rw [h]
    simp
  have hcount : countEmpty (X' ++ [] :: Y.dropLast) = 1 := by
    rw [countEmpty_append, countEmpty_eq_zero X' hX'nn, countEmpty_cons_empty,
      countEmpty_eq_zero _ hYdnn]
  have hlastne : ((x0 :: (X' ++ [] :: Y)).getLastD [' ']).isEmpty = false := by
    show (((x0 :: X') ++ ([] :: Y)).getLastD [' ']).isEmpty = false
    rw [getLastD_append_right _ _ (show ([] : List Char) :: Y ≠ [] by simp)]
    show (([[]] ++ Y).getLastD [' ']).isEmpty = false
    rw [getLastD_append_right _ _ hYne]
    exact isEmpty_false_of_ne_nil _ (hYnn _ (getLastD_mem Y hYne _))
  have hlencalc : (x0 :: (X' ++ [] :: Y)).length = X'.length + Y.length + 2 := by
    simp only [List.length_cons, List.length_append]
    omega
  have htake : List.take (X'.length + 1) (x0 :: (X' ++ [] :: Y)) = x0 :: X' := by
    have h := List.take_left (x0 :: X') ([] :: Y)
    simp only [List.cons_append, List.length_cons] at h
    exact h
  have hdrop : List.drop (X'.length + Y.length + 2 - Y.length) (x0 :: (X' ++ [] :: Y)) = Y := by
    have h2 : X'.length + Y.length + 2 - Y.length = X'.length + 1 + 1 := by omega
    rw [h2]
    have h := @List.drop_append _ (x0 :: X') ([] :: Y) 1
    simp only [List.cons_append, List.length_cons] at h
    rw [h, List.drop_succ_cons, List.drop_zero]
  simp only [assemble, List.cons_append, hinner, hfind, hcount, List.headD_cons, hx0ne,
    hlastne, Bool.false_eq_true, if_false, hlencalc]
  rw [if_neg (by omega)]
  rw [if_neg (show ¬ 8 ≤ X'.length + 1 + (X'.length + Y.length + 2 - (X'.length + 1) - 1) by
    omega)]
  have harith : X'.length + Y.length + 2 - (X'.length + 1) - 1 = Y.length := by omega
  rw [harith, htake, hdrop, hX, hY]
  simp only [List.length_cons, Option.some.injEq]

/-- `assemble` on `[] :: [] :: Y` — a `::` at the front. -/
theorem assemble_left (Y : List (List Char)) (w : List Nat)
    (hY : parseHextets Y = some w) (hYne : Y ≠ []) (hlen : Y.length ≤ 7) :
    assemble ([] :: [] :: Y) = some (List.replicate (8 - Y.length) 0 ++ w) := by
  have hYnn := parseHextets_nonempty Y w hY
  have hYdnn : ∀ p ∈ Y.dropLast, p ≠ [] := fun p hp => hYnn p (List.dropLast_subset Y hp)
  have hinner : (List.drop 1 ([] :: ([] :: Y))).dropLast = [] :: Y.dropLast := by
    rw [List.drop_succ_cons, List.drop_zero, List.dropLast_cons_of_ne_nil hYne]
  have hfind : findEmptyIdx ([] :: Y.dropLast) 0 = some 0 := by
    simp [findEmptyIdx]
  have hcount : countEmpty ([] :: Y.dropLast) = 1 := by
    rw [countEmpty_cons_empty, countEmpty_eq_zero _ hYdnn]
  have hlastne : (([] :: ([] :: Y)).getLastD [' ']).isEmpty = false := by
    show (([[], []] ++ Y).getLastD [' ']).isEmpty = false
    rw [getLastD_append_right _ _ hYne]
    exact isEmpty_false_of_ne_nil _ (hYnn _ (getLastD_mem Y hYne _))
  have hlencalc : (([] : List Char) :: ([] :: Y)).length = Y.length + 2 := by
    simp only [List.length_cons]
  simp only [assemble, hinner, hfind, hcount, List.headD_cons, List.isEmpty_nil,
    hlastne, Bool.false_eq_true, if_false, hlencalc, if_true]
  rw [if_neg (by omega)]
  have harith : Y.length + 2 - (0 + 1) - 1 = Y.length := by omega
  rw [harith]
  rw [if_neg (show ¬ 8 ≤ 0 + Y.length by omega)]
  have hdrop : List.drop (Y.length + 2 - Y.length) (([] : List Char) :: ([] :: Y)) = Y := by
    have h2 : Y.length + 2 - Y.length = 2 := by omega
    rw [h2, List.drop_succ_cons, List.drop_succ_cons, List.drop_zero]
  rw [List.take_zero, hdrop, hY]
  simp [parseHextets]

/-- `assemble` on `X ++ [[], []]` — a `::` at the back. -/
theorem assemble_right (X : List (List Char)) (u : List Nat)
    (hX : parseHextets X = some u) (hXne : X ≠ []) (hlen : X.length ≤ 7) :
    assemble (X ++ [[], []]) = some (u ++ List.replicate (8 - X.length) 0) := by
  have hXnn := parseHextets_nonempty X u hX
  obtain ⟨x0, X', rfl⟩ := List.exists_cons_of_ne_nil hXne
  have hlen' : X'.length ≤ 6 := by
    simp only [List.length_cons] at hlen
    omega
  have hX'nn : ∀ p ∈ X', p ≠ [] := fun p hp => hXnn p (List.mem_cons_of_mem x0 hp)
  have hx0ne : x0.isEmpty = false :=
    isEmpty_false_of_ne_nil x0 (hXnn x0 (List.mem_cons_self x0 X'))
  have hinner : (List.drop 1 (x0 :: (X' ++ [[], []]))).dropLast = X' ++ [[]] := by
    rw [List.drop_succ_cons, List.drop_zero,
      List.dropLast_append_of_ne_nil X' (show [[], []] ≠ ([] : List (List Char)) by simp)]
    rfl
  have hfind : findEmptyIdx (X' ++ [[]]) 0 = some X'.length := by
    have h := findEmptyIdx_append X' hX'nn [] 0
    rw [show (X' ++ [[]] : List (List Char)) = X' ++ [] :: [] from rfl, h]
    simp
  have hcount : countEmpty (X' ++ [[]]) = 1 := by
    rw [countEmpty_append, countEmpty_eq_zero X' hX'nn, countEmpty_cons_empty]
    rfl
  have hlast : ((x0 :: (X' ++ [[], []])).getLastD [' ']) = [] := by
    rw [show (X' ++ [[], []] : List (List Char)) = (X' ++ [[]]) ++ [[]] by
      rw [List.append_assoc]
      rfl]
    show (((x0 :: (X' ++ [[]])) ++ [[]]).getLastD [' ']) = []
    rw [getLastD_append_right _ _ (by simp)]
    rfl
  have hlencalc : (x0 :: (X' ++ [[], []])).length = X'.length + 3 := by
    simp only [List.length_cons, List.length_append, List.length_nil]
  have htake : List.take (X'.length + 1) (x0 :: (X' ++ [[], []])) = x0 :: X' := by
    have h := List.take_left (x0 :: X') [[], []]
    simp only [List.cons_append, List.length_cons] at h
    exact h
  have hlo0 : X'.length + 3 - (X'.length + 1) - 1 = 1 := by omega
  simp only [assemble, List.cons_append, hinner, hfind, hcount, List.headD_cons, hx0ne,
    hlast, List.isEmpty_nil, Bool.false_eq_true, if_false, hlencalc, if_true, hlo0]
  rw [if_neg (by omega)]
  rw [if_neg (show ¬ 8 ≤ X'.length + 1 + 0 by omega)]
  have hdropnil : List.drop (X'.length + 3 - 0) (x0 :: (X' ++ [[], []])) = [] := by
    apply List.drop_eq_nil_of_le
    simp only [List.length_cons, List.length_append, List.length_nil]
    omega
  rw [htake, hdropnil, hX]
  simp [parseHextets]

/-- `assemble` on `[[], [], []]` — the all-zero address `::`. -/
theorem assemble_all_zero : assemble [[], [], []] = some (List.replicate 8 0) := by
  decide

/-! ## The best-zero-run scan -/

theorem bestRunLoop_inv (full : List (List Char)) :
    ∀ (t : List (List Char)) (i : Nat) (best cur : Nat × Nat),
      t = full.drop i →
      (1 ≤ best.2 → best.1 + best.2 ≤ full.length ∧
        ∀ k < best.2, full.getD (best.1 + k) [' '] = ['0']) →
      (1 ≤ cur.2 → cur.1 + cur.2 = i ∧
        ∀ k < cur.2, full.getD (cur.1 + k) [' '] = ['0']) →
      (1 ≤ (bestRunLoop t i best cur).2 →
        (bestRunLoop t i best cur).1 + (bestRunLoop t i best cur).2 ≤ full.length ∧
        ∀ k < (bestRunLoop t i best cur).2,
          full.getD ((bestRunLoop t i best cur).1 + k) [' '] = ['0']) := by
  intro t
  induction t with
  | nil =>
    intro i best cur _ hbest _
    simpa [bestRunLoop] using hbest
  | cons h t ih =>
    intro i best cur hdrop hbest hcur
    have hi_lt : i < full.length := by
      by_contra hcon
      have hnil : full.drop i = [] := List.drop_eq_nil_of_le (by omega)
      rw [hnil] at hdrop
      exact List.noConfusion hdrop
    have hh : full.getD i [' '] = h := by
      have h0 := List.getElem?_drop full i 0
      rw [← hdrop] at h0
      simp only [List.getElem?_cons_zero, Nat.add_zero] at h0
      rw [List.getD_eq_getElem?_getD, ← h0]
      rfl
    have ht : t = full.drop (i + 1) := by
      have hdd := List.drop_drop 1 i full
      rw [← hdrop] at hdd
      simpa using hdd
    rw [bestRunLoop]
    by_cases hzero : h = ['0']
    · rw [if_pos hzero]
      have hcur' : 1 ≤ cur.2 + 1 →
          (if cur.2 = 0 then i else cur.1) + (cur.2 + 1) = i + 1 ∧
          ∀ k < cur.2 + 1,
            full.getD ((if cur.2 = 0 then i else cur.1) + k) [' '] = ['0'] := by
        intro _
        by_cases hc0 : cur.2 = 0
        · rw [if_pos hc0, hc0]
          refine ⟨rfl, ?_⟩
          intro k hk
          have hk0 : k = 0 := by omega
          rw [hk0, Nat.add_zero, hh, hzero]
        · rw [if_neg hc0]
          obtain ⟨hsum, hz⟩ := hcur (by omega)
          refine ⟨by omega, ?_⟩
          intro k hk
          by_cases hlt : k < cur.2
          · exact hz k hlt
          · have hkeq : k = cur.2 := by omega
            rw [hkeq, hsum, hh, hzero]
      have hbest' : 1 ≤ (if best.2 < cur.2 + 1 then
            ((if cur.2 = 0 then i else cur.1), cur.2 + 1) else best).2 →
          (if best.2 < cur.2 + 1 then
            ((if cur.2 = 0 then i else cur.1), cur.2 + 1) else best).1 +
          (if best.2 < cur.2 + 1 then
            ((if cur.2 = 0 then i else cur.1), cur.2 + 1) else best).2 ≤ full.length ∧
          ∀ k < (if best.2 < cur.2 + 1 then
            ((if cur.2 = 0 then i else cur.1), cur.2 + 1) else best).2,
            full.getD ((if best.2 < cur.2 + 1 then
              ((if cur.2 = 0 then i else cur.1), cur.2 + 1) else best).1 + k) [' '] =
              ['0'] := by
        by_cases hb : best.2 < cur.2 + 1
        · rw [if_pos hb]
          intro _
          obtain ⟨hsum, hz⟩ := hcur' (by omega)
          exact ⟨by omega, hz⟩
        · rw [if_neg hb]
          exact hbest
      exact ih (i + 1) _ _ ht hbest' hcur'
    · rw [if_neg hzero]
      exact ih (i + 1) best (0, 0) ht hbest (by intro hcon; simp at hcon)

theorem bestRun_spec (hs : List (List Char)) :
    1 ≤ (bestRunLoop hs 0 (0, 0) (0, 0)).2 →
      (bestRunLoop hs 0 (0, 0) (0, 0)).1 + (bestRunLoop hs 0 (0, 0) (0, 0)).2 ≤ hs.length ∧
      ∀ k < (bestRunLoop hs 0 (0, 0) (0, 0)).2,
        hs.getD ((bestRunLoop hs 0 (0, 0) (0, 0)).1 + k) [' '] = ['0'] :=
  bestRunLoop_inv hs hs 0 (0, 0) (0, 0) (by simp)
    (by intro hcon; simp at hcon) (by intro hcon; simp at hcon)

theorem bestRun_zeros (v : List Nat) (S L : Nat)
    (hSL : bestRunLoop (v.map hexNoPad) 0 (0, 0) (0, 0) = (S, L)) (hL : 1 ≤ L) :
    S + L ≤ v.length ∧ ∀ k < L, v.getD (S + k) 1 = 0 := by
  have h := bestRun_spec (v.map hexNoPad)
  rw [hSL] at h
  obtain ⟨hlen, hz⟩ := h hL
  rw [List.length_map] at hlen
  refine ⟨hlen, ?_⟩
  intro k hk
  have hik : S + k < v.length := by omega
  have hmap := hz k hk
  rw [List.getD_eq_getElem?_getD, List.getElem?_map,
    List.getElem?_eq_getElem hik] at hmap
  simp only [Option.map_some', Option.getD_some] at hmap
  have : v[S + k] = 0 := (hexNoPad_zero_iff _).mp hmap
  rw [List.getD_eq_getElem?_getD, List.getElem?_eq_getElem hik]
  simpa using this

theorem take_replicate_drop (v : List Nat) (S L : Nat) (hSL : S + L ≤ v.length)
    (hz : ∀ k < L, v.getD (S + k) 1 = 0) :
    v.take S ++ List.replicate L 0 ++ v.drop (S + L) = v := by
  rw [List.append_assoc]
  conv_rhs => rw [← List.take_append_drop S v]
  congr 1
  have hdec : v.drop S = (v.drop S).take L ++ (v.drop S).drop L :=
    (List.take_append_drop L _).symm
  rw [hdec]
  congr 1
  · symm
    rw [List.eq_replicate_iff]
    constructor
    · rw [List.length_take, List.length_drop]
      omega
    · intro b hb
      obtain ⟨i, hi, hib⟩ := List.mem_iff_getElem.mp hb
      have hiL : i < L := by
        have := hi
        simp only [List.length_take, List.length_drop] at this
        omega
      have hidx : S + i < v.length := by omega
      rw [List.getElem_take, List.getElem_drop] at hib
      have := hz i hiL
      rw [List.getD_eq_getElem?_getD, List.getElem?_eq_getElem hidx] at this
      simp only [Option.getD_some] at this
      rw [← hib]
      exact this
  · rw [List.drop_drop]

theorem contains_false (p : List Char) (c : Char) (h : ∀ ch ∈ p, ch ≠ c) :
    p.contains c = false := by
  induction p with
  | nil => rfl
  | cons x xs ih =>
    have hx : (c == x) = false := by
      rw [beq_eq_false_iff_ne]
      exact fun hce => h x (List.mem_cons_self x xs) hce.symm
    simp only [List.contains_cons, hx, Bool.false_or]
    exact ih (fun ch hch => h ch (List.mem_cons_of_mem x hch))

/-- Parsing the exploded rendering recovers the hextet values. -/
theorem parse_exploded (v : List Nat) (hlen : v.length = 8) (hb : ∀ x ∈ v, x < 65536) :
    parseIPv6Core (explodedChars v) = some v := by
  have hmap8 : (v.map hex4).length = 8 := by simp [hlen]
  have hmapne : v.map hex4 ≠ [] := by
    intro h
    rw [h] at hmap8
    simp at hmap8
  have hnocolon : ∀ g ∈ v.map hex4, ∀ x ∈ g, x ≠ ':' := by
    intro g hg x hx
    obtain ⟨n, hn, rfl⟩ := List.mem_map.mp hg
    obtain ⟨d, hd, rfl⟩ := hex4_chars n x hx
    exact (hexDigChar_ne d hd).1
  have hsplit : splitCh ':' (joinCh ':' (v.map hex4)) = v.map hex4 :=
    splitCh_joinCh ':' _ hmapne hnocolon
  have hne : joinCh ':' (v.map hex4) ≠ [] := by
    rcases hm : v.map hex4 with _ | ⟨g, rest⟩
    · exact absurd hm hmapne
    · rcases rest with _ | ⟨g', gs⟩
      · rw [hm] at hmap8
        simp at hmap8
      · exact joinCh_ne_nil₂ ':' g g' gs
  have hlast_nodot : ((v.map hex4).getLastD []).contains '.' = false := by
    have hmem := getLastD_mem (v.map hex4) hmapne []
    obtain ⟨n, hn, hpe⟩ := List.mem_map.mp hmem
    apply contains_false
    intro ch hch
    rw [← hpe] at hch
    obtain ⟨d, hd, rfl⟩ := hex4_chars n ch hch
    exact (hexDigChar_ne d hd).2.1
  have hparse : parseHextets (v.map hex4) = some v :=
    parseHextets_map hex4 v (fun x hx => parseHextet_hex4 x (hb x hx))
  have hassemble : assemble (v.map hex4) = some v :=
    assemble_noskip (v.map hex4) v hmap8 hparse
  simp only [explodedChars, parseIPv6Core, hne, if_false, hsplit, hmap8, hlast_nodot,
    Bool.false_eq_true, hassemble]
  norm_num

/-- Evaluate the core parser given the colon-separated parts. -/
theorem parseIPv6Core_of_parts (parts : List (List Char))
    (h3 : 3 ≤ parts.length) (h9 : parts.length ≤ 9)
    (hnocolon : ∀ g ∈ parts, ∀ x ∈ g, x ≠ ':')
    (hnodot : ((parts.getLastD []).contains '.') = false)
    (v : List Nat) (hassemble : assemble parts = some v) :
    parseIPv6Core (joinCh ':' parts) = some v := by
  have hpne : parts ≠ [] := by
    intro h
    rw [h] at h3
    simp at h3
  have hcs : joinCh ':' parts ≠ [] := by
    rcases parts with _ | ⟨g, _ | ⟨g', gs⟩⟩
    · exact absurd rfl hpne
    · simp at h3
    · exact joinCh_ne_nil₂ ':' g g' gs
  have hsplit : splitCh ':' (joinCh ':' parts) = parts :=
    splitCh_joinCh ':' parts hpne hnocolon
  simp only [parseIPv6Core, hcs, if_false, hsplit, hnodot, Bool.false_eq_true, hassemble]
  rw [if_neg (by omega), if_neg (by omega)]

/-- Parsing the compressed rendering recovers the hextet values. -/
theorem parse_compressed (v : List Nat) (hlen : v.length = 8) (hb : ∀ x ∈ v, x < 65536) :
    parseIPv6Core (compressChars v) = some v := by
  have hhs8 : (v.map hexNoPad).length = 8 := by simp [hlen]
  have hnocolon_hs : ∀ g ∈ v.map hexNoPad, ∀ x ∈ g, x ≠ ':' := by
    intro g hg x hx
    obtain ⟨n, hn, rfl⟩ := List.mem_map.mp hg
    obtain ⟨d, hd, rfl⟩ := hexNoPad_chars n x hx
    exact (hexDigChar_ne d hd).1
  have hnodot_hs : ∀ g ∈ v.map hexNoPad, ∀ x ∈ g, x ≠ '.' := by
    intro g hg x hx
    obtain ⟨n, hn, rfl⟩ := List.mem_map.mp hg
    obtain ⟨d, hd, rfl⟩ := hexNoPad_chars n x hx
    exact (hexDigChar_ne d hd).2.1
  have hparse_take : ∀ S : Nat, parseHextets ((v.take S).map hexNoPad) = some (v.take S) :=
    fun S => parseHextets_map hexNoPad (v.take S)
      (fun x hx => parseHextet_hexNoPad x (hb x (List.mem_of_mem_take hx)))
  have hparse_drop : ∀ S : Nat, parseHextets ((v.drop S).map hexNoPad) = some (v.drop S) :=
    fun S => parseHextets_map hexNoPad (v.drop S)
      (fun x hx => parseHextet_hexNoPad x (hb x (List.mem_of_mem_drop hx)))
  rcases hbest : bestRunLoop (v.map hexNoPad) 0 (0, 0) (0, 0) with ⟨S, L⟩
  by_cases hL : 1 < L
  · obtain ⟨hSL, hzero⟩ := bestRun_zeros v S L hbest (by omega)
    rw [hlen] at hSL
    have hrecon := take_replicate_drop v S L (by omega) hzero
    by_cases hS0 : S = 0
    · by_cases hend : S + L = 8
      · -- the whole address is zero
        have hL8 : L = 8 := by omega
        have hv : v = List.replicate 8 0 := by
          subst hS0 hL8
          have h1 : v.take 0 = [] := rfl
          have h2 : v.drop (0 + 8) = [] := List.drop_eq_nil_of_le (by omega)
          rw [h1, h2] at hrecon
          simpa using hrecon.symm
        have hcompress : compressChars v = [':', ':'] := by
          simp only [compressChars, compressHextets, hbest]
          rw [if_pos (by omega), if_pos hS0,
            if_pos (show S + L = (List.map hexNoPad v).length by rw [hhs8]; omega)]
          subst hS0
          have hd8 : ((v.map hexNoPad ++ [[]]).drop (0 + L)) = [[]] := by
            have h := @List.drop_append _ (v.map hexNoPad) [[]] 0
            simp only [Nat.add_zero, List.drop_zero, hhs8] at h
            rw [show 0 + L = 8 from by omega]
            exact h
          rw [hd8]
          rfl
        rw [hcompress, hv]
        decide
      · -- zero run at the front, nonzero tail
        have hY : (v.map hexNoPad).drop (S + L) = (v.drop (S + L)).map hexNoPad :=
          (List.map_drop hexNoPad v (S + L)).symm
        have hYlen : (v.drop (S + L)).length = 8 - L := by
          rw [List.length_drop, hlen, hS0]
          omega
        have hYne : (v.drop (S + L)).map hexNoPad ≠ [] := by
          intro h
          have h2 := congrArg List.length h
          rw [List.length_map, hYlen] at h2
          simp at h2
          omega
        have hcompress : compressChars v =
            joinCh ':' ([] :: [] :: (v.drop (S + L)).map hexNoPad) := by
          simp only [compressChars, compressHextets, hbest]
          rw [if_pos (by omega), if_pos hS0,
            if_neg (show ¬ S + L = (List.map hexNoPad v).length by rw [hhs8]; omega)]
          rw [hY, hS0, List.take_zero]
          rfl
        rw [hcompress]
        have hassemble : assemble ([] :: [] :: (v.drop (S + L)).map hexNoPad) =
            some (List.replicate (8 - (8 - L)) 0 ++ v.drop (S + L)) := by
          have h := assemble_left ((v.drop (S + L)).map hexNoPad) (v.drop (S + L))
            (hparse_drop (S + L)) hYne (by rw [List.length_map, hYlen]; omega)
          rw [List.length_map, hYlen] at h
          exact h
        rw [parseIPv6Core_of_parts _ (by simp [List.length_map, hYlen]; omega)
          (by simp [List.length_map, hYlen]; omega)
          (by
            intro g hg x hx
            rcases List.mem_cons.mp hg with rfl | hg'
            · simp at hx
            · rcases List.mem_cons.mp hg' with rfl | hg''
              · simp at hx
              · exact hnocolon_hs g (by
                  rw [← hY] at hg''
                  exact List.mem_of_mem_drop hg'') x hx)
          (by
            have hmem := getLastD_mem ([] :: [] :: (v.drop (S + L)).map hexNoPad)
              (by simp) []
            apply contains_false
            intro ch hch
            rcases List.mem_cons.mp hmem with he | hmem'
            · rw [he] at hch
              simp at hch
            · rcases List.mem_cons.mp hmem' with he | hmem''
              · rw [he] at hch
                simp at hch
              · obtain ⟨n, hn, hpe⟩ := List.mem_map.mp hmem''
                rw [← hpe] at hch
                obtain ⟨d, hd, rfl⟩ := hexNoPad_chars n ch hch
                exact (hexDigChar_ne d hd).2.1)
          _ hassemble]
        congr 1
        have h8L : 8 - (8 - L) = L := by omega
        rw [h8L]
        rw [hS0] at hrecon ⊢
        simpa using hrecon
    · by_cases hend : S + L = 8
      · -- zero run to the end
        have hX : (v.map hexNoPad).take S = (v.take S).map hexNoPad :=
          (List.map_take hexNoPad v S).symm
        have hXlen : (v.take S).length = S := by
          rw [List.length_take, hlen]
          omega
        have hXne : (v.take S).map hexNoPad ≠ [] := by
          intro h
          have h2 := congrArg List.length h
          rw [List.length_map, hXlen] at h2
          simp at h2
          omega
        have hcompress : compressChars v =
            joinCh ':' ((v.take S).map hexNoPad ++ [[], []]) := by
          simp only [compressChars, compressHextets, hbest]
          rw [if_pos (by omega), if_neg hS0,
            if_pos (show S + L = (List.map hexNoPad v).length by rw [hhs8]; omega)]
          have htk : (v.map hexNoPad ++ [[]]).take S = (v.take S).map hexNoPad := by
            rw [List.take_append_of_le_length (by rw [hhs8]; omega), hX]
          have hd8 : ((v.map hexNoPad ++ [[]]).drop (S + L)) = [[]] := by
            have h := @List.drop_append _ (v.map hexNoPad) [[]] 0
            rw [hhs8] at h
            simp only [List.drop_zero] at h
            rw [hend]
            exact h
          rw [htk, hd8, List.append_assoc]
          rfl
        rw [hcompress]
        have hassemble : assemble ((v.take S).map hexNoPad ++ [[], []]) =
            some (v.take S ++ List.replicate (8 - S) 0) := by
          have h := assemble_right ((v.take S).map hexNoPad) (v.take S)
            (hparse_take S) hXne (by rw [List.length_map, hXlen]; omega)
          rw [List.length_map, hXlen] at h
          exact h
        rw [parseIPv6Core_of_parts _
          (by simp [List.length_map, hXlen]; omega)
          (by simp [List.length_map, hXlen]; omega)
          (by
            intro g hg x hx
            rcases List.mem_append.mp hg with hg' | hg'
            · exact hnocolon_hs g (by
                rw [← hX] at hg'
                exact List.mem_of_mem_take hg') x hx
            · rcases List.mem_cons.mp hg' with rfl | hg''
              · simp at hx
              · rcases List.mem_cons.mp hg'' with rfl | hg'''
                · simp at hx
                · simp at hg''')
          (by
            rw [getLastD_append_right _ _ (by simp)]
            rfl)
          _ hassemble]
        congr 1
        have h8S : 8 - S = L := by omega
        rw [h8S]
        have hdnil : v.drop (S + L) = [] := List.drop_eq_nil_of_le (by omega)
        rw [hdnil] at hrecon
        simpa using hrecon
      · -- zero run strictly inside
        have hX : (v.map hexNoPad).take S = (v.take S).map hexNoPad :=
          (List.map_take hexNoPad v S).symm
        have hY : (v.map hexNoPad).drop (S + L) = (v.drop (S + L)).map hexNoPad :=
          (List.map_drop hexNoPad v (S + L)).symm
        have hXlen : (v.take S).length = S := by
          rw [List.length_take, hlen]
          omega
        have hYlen : (v.drop (S + L)).length = 8 - (S + L) := by
          rw [List.length_drop, hlen]
        have hXne : (v.take S).map hexNoPad ≠ [] := by
          intro h
          have h2 := congrArg List.length h
          rw [List.length_map, hXlen] at h2
          simp at h2
          omega
        have hYne : (v.drop (S + L)).map hexNoPad ≠ [] := by
          intro h
          have h2 := congrArg List.length h
          rw [List.length_map, hYlen] at h2
          simp at h2
          omega
        have hcompress : compressChars v =
            joinCh ':' ((v.take S).map hexNoPad ++ [] :: (v.drop (S + L)).map hexNoPad) := by
          simp only [compressChars, compressHextets, hbest]
          rw [if_pos (by omega), if_neg hS0,
            if_neg (show ¬ S + L = (List.map hexNoPad v).length by rw [hhs8]; omega)]
          rw [hX, hY, List.append_assoc]
          rfl
        rw [hcompress]
        have hassemble : assemble ((v.take S).map hexNoPad ++ [] :: (v.drop (S + L)).map hexNoPad) =
            some (v.take S ++ List.replicate (8 - (S + (8 - (S + L)))) 0 ++ v.drop (S + L)) := by
          have h := assemble_mid ((v.take S).map hexNoPad) ((v.drop (S + L)).map hexNoPad)
            (v.take S) (v.drop (S + L)) (hparse_take S) (hparse_drop (S + L)) hXne hYne
            (by rw [List.length_map, List.length_map, hXlen, hYlen]; omega)
          rw [List.length_map, List.length_map, hXlen, hYlen] at h
          exact h
        rw [parseIPv6Core_of_parts _
          (by simp [List.length_map, hXlen, hYlen]; omega)
          (by simp [List.length_map, hXlen, hYlen]; omega)
          (by
            intro g hg x hx
            rcases List.mem_append.mp hg with hg' | hg'
            · exact hnocolon_hs g (by
                rw [← hX] at hg'
                exact List.mem_of_mem_take hg') x hx
            · rcases List.mem_cons.mp hg' with rfl | hg''
              · simp at hx
              · exact hnocolon_hs g (by
                  rw [← hY] at hg''
                  exact List.mem_of_mem_drop hg'') x hx)
          (by
            rw [getLastD_append_right _ _ (by simp)]
            have hmem := getLastD_mem ([] :: (v.drop (S + L)).map hexNoPad) (by simp) []
            apply contains_false
            intro ch hch
            rcases List.mem_cons.mp hmem with he | hmem'
            · rw [he] at hch
              simp at hch
            · obtain ⟨n, hn, hpe⟩ := List.mem_map.mp hmem'
              rw [← hpe] at hch
              obtain ⟨d, hd, rfl⟩ := hexNoPad_chars n ch hch
              exact (hexDigChar_ne d hd).2.1)
          _ hassemble]
        congr 1
        have harr : 8 - (S + (8 - (S + L))) = L := by omega
        rw [harr]
        exact hrecon
  · -- no compression
    have hcompress : compressChars v = joinCh ':' (v.map hexNoPad) := by
      simp only [compressChars, compressHextets, hbest]
      rw [if_neg (by omega)]
    rw [hcompress]
    have hparse : parseHextets (v.map hexNoPad) = some v :=
      parseHextets_map hexNoPad v (fun x hx => parseHextet_hexNoPad x (hb x hx))
    exact parseIPv6Core_of_parts _ (by rw [hhs8]; omega) (by rw [hhs8]; omega)
      hnocolon_hs
      (by
        have hmem := getLastD_mem (v.map hexNoPad) (by
          intro h
          rw [h] at hhs8
          simp at hhs8) []
        apply contains_false
        intro ch hch
        exact hnodot_hs _ hmem ch hch)
      v (assemble_noskip _ v hhs8 hparse)

/-! ## Inverting a successful parse -/

theorem getLastD_mem_drop {α : Type} (d : α) :
    ∀ (l : List α) (k : Nat), k < l.length → l.getLastD d ∈ l.drop k := by
  intro l
  induction l with
  | nil => intro k hk; simp at hk
  | cons x xs ih =>
    intro k hk
    match k with
    | 0 => exact getLastD_mem _ (by simp) d
    | k + 1 =>
      rw [List.drop_succ_cons]
      have hxs : xs ≠ [] := by
        intro hnil
        rw [hnil] at hk
        simp at hk
      have hlast : (x :: xs).getLastD d = xs.getLastD d := by
        rcases xs with _ | ⟨y, ys⟩
        · exact absurd rfl hxs
        · rfl
      rw [hlast]
      exact ih k (by simp at hk; omega)

theorem headD_mem_take {α : Type} (l : List α) (hl : l ≠ []) (n : Nat) (hn : 1 ≤ n)
    (d : α) : l.headD d ∈ l.take n := by
  rcases l with _ | ⟨x, xs⟩
  · exact absurd rfl hl
  · match n with
    | n + 1 =>
      rw [List.take_succ_cons]
      exact List.mem_cons_self x _

theorem length_inner (parts : List (List Char)) :
    ((parts.drop 1).dropLast).length = parts.length - 1 - 1 := by
  rw [List.length_dropLast, List.length_drop]

/-- Inversion of a successful `assemble`: the value is 8 hextets below
2^16, and each endpoint part is empty or parses as a hextet. -/
theorem assemble_inv (parts : List (List Char)) (v : List Nat)
    (h : assemble parts = some v) :
    (v.length = 8 ∧ ∀ x ∈ v, x < 65536) ∧
    (parts.headD [' '] = [] ∨ ∃ m, parseHextet (parts.headD [' ']) = some m) ∧
    (parts.getLastD [' '] = [] ∨ ∃ m, parseHextet (parts.getLastD [' ']) = some m) := by
  rcases hfind : findEmptyIdx ((parts.drop 1).dropLast) 0 with _ | j
  · simp only [assemble, hfind] at h
    split at h
    · exact Option.noConfusion h
    · split at h
      · exact Option.noConfusion h
      · split at h
        · exact Option.noConfusion h
        · next h1 h2 h3 =>
          obtain ⟨hlen, hb, hparse⟩ := parseHextets_inv parts v h
          have hplen : parts.length = 8 := not_not.mp h1
          have hne : parts ≠ [] := by
            intro hh
            rw [hh] at hplen
            simp at hplen
          refine ⟨⟨by rw [hlen, hplen], hb⟩, ?_, ?_⟩
          · exact Or.inr (hparse _ (headD_mem parts hne [' ']))
          · exact Or.inr (hparse _ (getLastD_mem parts hne [' ']))
  · simp only [assemble, hfind] at h
    split at h
    · exact Option.noConfusion h
    · next hcount2 =>
      obtain ⟨A, B, hinner, hj, hA, hB⟩ :=
        findEmpty_decomp _ 0 j hfind (by omega)
      have hjA : A.length = j := by omega
      have hinlen : ((parts.drop 1).dropLast).length = parts.length - 1 - 1 :=
        length_inner parts
      have hABlen : A.length + 1 + B.length = parts.length - 1 - 1 := by
        rw [hinner] at hinlen
        simp only [List.length_append, List.length_cons] at hinlen
        omega
      have hplen3 : 3 ≤ parts.length := by omega
      have hpne : parts ≠ [] := by
        intro hh
        rw [hh] at hplen3
        simp at hplen3
      rcases hhi : (if (parts.headD [' ']).isEmpty = true then
          (if j + 1 = 1 then some 0 else none) else some (j + 1)) with _ | hi
      · rw [hhi] at h
        simp at h
      · rcases hlo : (if (parts.getLastD [' ']).isEmpty = true then
            (if parts.length - (j + 1) - 1 = 1 then some 0 else none)
            else some (parts.length - (j + 1) - 1)) with _ | lo
        · rw [hhi, hlo] at h
          simp at h
        · rw [hhi, hlo] at h
          have h2 : (if 8 ≤ hi + lo then none
              else match parseHextets (parts.take hi),
                parseHextets (parts.drop (parts.length - lo)) with
              | some hiVals, some loVals =>
                some (hiVals ++ List.replicate (8 - (hi + lo)) 0 ++ loVals)
              | _, _ => none) = some v := h
          clear h
          split at h2
          · exact Option.noConfusion h2
          · next hguard =>
            rcases hph : parseHextets (parts.take hi) with _ | hiVals
            · rw [hph] at h2
              simp at h2
            · rcases hpl : parseHextets (parts.drop (parts.length - lo)) with _ | loVals
              · rw [hph, hpl] at h2
                simp at h2
              · rw [hph, hpl] at h2
                have h : hiVals ++ List.replicate (8 - (hi + lo)) 0 ++ loVals = v :=
                  Option.some_inj.mp h2
                have hhi_le : hi ≤ j + 1 := by
                  by_cases hhd : (parts.headD [' ']).isEmpty = true
                  · rw [if_pos hhd] at hhi
                    by_cases hj1 : j + 1 = 1
                    · rw [if_pos hj1] at hhi
                      have := Option.some_inj.mp hhi
                      omega
                    · rw [if_neg hj1] at hhi
                      exact Option.noConfusion hhi
                  · rw [if_neg hhd] at hhi
                    have := Option.some_inj.mp hhi
                    omega
                have hlo_le : lo ≤ parts.length - (j + 1) - 1 := by
                  by_cases hld : (parts.getLastD [' ']).isEmpty = true
                  · rw [if_pos hld] at hlo
                    by_cases hl1 : parts.length - (j + 1) - 1 = 1
                    · rw [if_pos hl1] at hlo
                      have := Option.some_inj.mp hlo
                      omega
                    · rw [if_neg hl1] at hlo
                      exact Option.noConfusion hlo
                  · rw [if_neg hld] at hlo
                    have := Option.some_inj.mp hlo
                    omega
                obtain ⟨hhl, hhb, hhp⟩ := parseHextets_inv _ _ hph
                obtain ⟨hll, hlb, hlp⟩ := parseHextets_inv _ _ hpl
                have hhlen : hiVals.length = hi := by
                  rw [hhl, List.length_take]
                  omega
                have hllen : loVals.length = lo := by
                  rw [hll, List.length_drop]
                  omega
                refine ⟨⟨?_, ?_⟩, ?_, ?_⟩
                · rw [← h]
                  simp only [List.length_append, List.length_replicate, hhlen, hllen]
                  omega
                · intro x hx
                  rw [← h] at hx
                  simp only [List.mem_append, List.mem_replicate] at hx
                  rcases hx with (hx | hx) | hx
                  · exact hhb x hx
                  · rw [hx.2]
                    omega
                  · exact hlb x hx
                · by_cases hhd : (parts.headD [' ']).isEmpty = true
                  · exact Or.inl (List.isEmpty_iff.mp hhd)
                  · rw [if_neg hhd] at hhi
                    have hval : hi = j + 1 := (Option.some_inj.mp hhi).symm
                    refine Or.inr (hhp _ ?_)
                    rw [hval]
                    exact headD_mem_take parts hpne (j + 1) (by omega) [' ']
                · by_cases hld : (parts.getLastD [' ']).isEmpty = true
                  · exact Or.inl (List.isEmpty_iff.mp hld)
                  · rw [if_neg hld] at hlo
                    have hval : lo = parts.length - (j + 1) - 1 :=
                      (Option.some_inj.mp hlo).symm
                    refine Or.inr (hlp _ ?_)
                    apply getLastD_mem_drop
                    omega

theorem headD_irrel {α : Type} (l : List α) (hl : l ≠ []) (d d' : α) :
    l.headD d = l.headD d' := by
  rcases l with _ | ⟨x, xs⟩
  · exact absurd rfl hl
  · rfl

theorem getLastD_irrel {α : Type} (l : List α) (hl : l ≠ []) (d d' : α) :
    l.getLastD d = l.getLastD d' := by
  rw [List.getLastD_eq_getLast?, List.getLastD_eq_getLast?,
    List.getLast?_eq_getLast l hl]
  rfl

theorem headD_dropLast {α : Type} (l : List α) (h2 : 2 ≤ l.length) (d : α) :
    l.dropLast.headD d = l.headD d := by
  rcases l with _ | ⟨x, _ | ⟨y, t⟩⟩
  · simp at h2
  · simp at h2
  · rw [List.dropLast_cons_of_ne_nil (by simp)]
    rfl

theorem hex_not_ws (c : Char) (h : isHexDig c = true) : pyWhitespace c = false := by
  simp only [isHexDig, Bool.or_eq_true, Bool.and_eq_true, decide_eq_true_eq] at h
  simp only [pyWhitespace, Bool.or_eq_false_iff, decide_eq_false_iff_not]
  omega

theorem dec_not_ws (c : Char) (h : isDecDig c = true) : pyWhitespace c = false := by
  simp only [isDecDig, Bool.and_eq_true, decide_eq_true_eq] at h
  simp only [pyWhitespace, Bool.or_eq_false_iff, decide_eq_false_iff_not]
  omega

theorem pyStrip_eq_self (cs : List Char)
    (h1 : pyWhitespace (cs.headD ' ') = false)
    (h2 : pyWhitespace (cs.getLastD ' ') = false) : pyStrip cs = cs := by
  rcases cs with _ | ⟨x, xs⟩
  · rfl
  · have hx : pyWhitespace x = false := h1
    unfold pyStrip
    rw [List.dropWhile_cons, hx]
    simp only [Bool.false_eq_true, if_false]
    rcases hrev : (x :: xs).reverse with _ | ⟨y, ys⟩
    · have := congrArg List.length hrev
      simp at this
    · have hy : y = (x :: xs).getLastD ' ' := by
        have hh : (x :: xs).reverse.headD ' ' = (x :: xs).getLastD ' ' := by
          rw [List.headD_eq_head?, List.head?_reverse, List.getLastD_eq_getLast?]
        rw [hrev] at hh
        simpa using hh
      have hyws : pyWhitespace y = false := by
        rw [hy]
        exact h2
      rw [List.dropWhile_cons, hyws]
      simp only [Bool.false_eq_true, if_false]
      rw [← hrev, List.reverse_reverse]

theorem parseOctet_inv (p : List Char) (n : Nat) (h : parseOctet p = some n) :
    p ≠ [] ∧ ∀ ch ∈ p, isDecDig ch = true := by
  unfold parseOctet at h
  split at h
  · exact Option.noConfusion h
  · split at h
    · exact Option.noConfusion h
    · next h1 h2 =>
      exact ⟨h1, List.all_eq_true.mp (not_not.mp h2)⟩

theorem parseOctets_inv :
    ∀ (l : List (List Char)) (w : List Nat), parseOctets l = some w →
      ∀ p ∈ l, ∃ m, parseOctet p = some m := by
  intro l
  induction l with
  | nil => intro w _ p hp; simp at hp
  | cons p ps ih =>
    intro w h q hq
    unfold parseOctets at h
    cases hp : parseOctet p with
    | none => rw [hp] at h; exact Option.noConfusion h
    | some m =>
      cases hps : parseOctets ps with
      | none => rw [hp, hps] at h; exact Option.noConfusion h
      | some ms =>
        rcases List.mem_cons.mp hq with rfl | hq'
        · exact ⟨m, hp⟩
        · exact ih ms hps q hq'

theorem parseIPv4_octets (cs : List Char) (w : Nat) (h : parseIPv4 cs = some w) :
    ∀ p ∈ splitCh '.' cs, p ≠ [] ∧ ∀ ch ∈ p, isDecDig ch = true := by
  unfold parseIPv4 at h
  cases hoct : parseOctets (splitCh '.' cs) with
  | none => rw [hoct] at h; exact Option.noConfusion h
  | some vals =>
    intro p hp
    obtain ⟨m, hm⟩ := parseOctets_inv _ vals hoct p hp
    exact parseOctet_inv p m hm

theorem joinCh_headD (c : Char) (g g' : List Char) (t : List (List Char)) :
    (joinCh c (g :: g' :: t)).headD ' ' = (if g = [] then c else g.headD ' ') := by
  rcases g with _ | ⟨ch, gtl⟩
  · simp [joinCh]
  · simp [joinCh]

theorem joinCh_last_ne (c : Char) :
    ∀ (gs : List (List Char)), gs ≠ [] → gs.getLastD [] ≠ [] →
      (joinCh c gs).getLastD ' ' = (gs.getLastD []).getLastD ' ' := by
  intro gs
  induction gs with
  | nil => intro h; exact absurd rfl h
  | cons g rest ih =>
    intro _ hne
    rcases rest with _ | ⟨g', t⟩
    · rfl
    · have hg' : (g' :: t).getLastD [] = (g :: g' :: t).getLastD [] := by
        rfl
      have hlast_ne : (g' :: t).getLastD [] ≠ [] := by
        rw [hg']
        exact hne
      have hjne : joinCh c (g' :: t) ≠ [] := by
        rcases t with _ | ⟨g'', t'⟩
        · simpa [joinCh] using hlast_ne
        · exact joinCh_ne_nil₂ c g' g'' t'
      have hstep : joinCh c (g :: g' :: t) = g ++ c :: joinCh c (g' :: t) := by
        simp [joinCh]
      rw [hstep, getLastD_append_right _ _ (by simp) ' ']
      have hcons : (c :: joinCh c (g' :: t)).getLastD ' ' =
          (joinCh c (g' :: t)).getLastD ' ' := by
        rcases hj : joinCh c (g' :: t) with _ | ⟨z, zs⟩
        · exact absurd hj hjne
        · rfl
      rw [hcons, ih (by simp) hlast_ne, hg']

theorem joinCh_last_empty (c : Char) :
    ∀ (gs : List (List Char)), 2 ≤ gs.length → gs.getLastD [] = [] →
      (joinCh c gs).getLastD ' ' = c := by
  intro gs
  induction gs with
  | nil => intro h; simp at h
  | cons g rest ih =>
    intro _ hemp
    rcases rest with _ | ⟨g', t⟩
    · simp at *
    · have hg' : (g' :: t).getLastD [] = (g :: g' :: t).getLastD [] := rfl
      have hstep : joinCh c (g :: g' :: t) = g ++ c :: joinCh c (g' :: t) := by
        simp [joinCh]
      rw [hstep, getLastD_append_right _ _ (by simp) ' ']
      rcases t with _ | ⟨g'', t'⟩
      · have hg'nil : g' = [] := by
          simpa using hg'.trans hemp
        subst hg'nil
        rfl
      · have hjne : joinCh c (g' :: g'' :: t') ≠ [] := joinCh_ne_nil₂ c g' g'' t'
        have hcons : (c :: joinCh c (g' :: g'' :: t')).getLastD ' ' =
            (joinCh c (g' :: g'' :: t')).getLastD ' ' := by
          rcases hj : joinCh c (g' :: g'' :: t') with _ | ⟨z, zs⟩
          · exact absurd hj hjne
          · rfl
        rw [hcons, ih (by simp) (by rw [hg']; exact hemp)]

theorem mem_headD {α : Type} (l : List α) (hl : l ≠ []) (d : α) :
    l.headD d ∈ l := headD_mem l hl d

/-- A successful core parse yields 8 in-range hextets, and the input
carries no surrounding whitespace (every end character is a hex digit,
a colon, or a dot). -/
theorem parseIPv6Core_inv (cs : List Char) (v : List Nat)
    (h : parseIPv6Core cs = some v) :
    (v.length = 8 ∧ ∀ x ∈ v, x < 65536) ∧ pyStrip cs = cs := by
  rw [parseIPv6Core] at h
  split at h
  · exact Option.noConfusion h
  · next hcs =>
    dsimp only at h
    split at h
    · exact Option.noConfusion h
    · next h3 =>
      rcases hm : (if ((splitCh ':' cs).getLastD []).contains '.' = true then
          (parseIPv4 ((splitCh ':' cs).getLastD [])).map
            (fun w => (splitCh ':' cs).dropLast ++
              [hexNoPad (w / 65536), hexNoPad (w % 65536)])
          else some (splitCh ':' cs)) with _ | parts
      · rw [hm] at h
        simp at h
      · rw [hm] at h
        have h2 : (if 9 < parts.length then none else assemble parts) = some v := h
        clear h
        split at h2
        · exact Option.noConfusion h2
        · obtain ⟨hwf, hhead, hlast⟩ := assemble_inv parts v h2
          refine ⟨hwf, ?_⟩
          -- structure of the colon parts
          have hlen3 : 3 ≤ (splitCh ':' cs).length := by omega
          rcases hsp : splitCh ':' cs with _ | ⟨g, _ | ⟨g', t⟩⟩
          · rw [hsp] at hlen3
            simp at hlen3
          · rw [hsp] at hlen3
            simp at hlen3
          · have hjoin : joinCh ':' (g :: g' :: t) = cs := by
              rw [← hsp]
              exact joinCh_splitCh ':' cs
            rw [hsp] at hm
            -- relate the head part of `parts` to `g`
            have hheadg : parts.headD [' '] = g := by
              split at hm
              · cases hw : parseIPv4 ((g :: g' :: t).getLastD []) with
                | none =>
                  rw [hw] at hm
                  exact Option.noConfusion hm
                | some w =>
                  rw [hw] at hm
                  have hparts : parts = (g :: g' :: t).dropLast ++
                      [hexNoPad (w / 65536), hexNoPad (w % 65536)] :=
                    (Option.some_inj.mp hm).symm
                  rw [hparts, headD_append_left _ _ (by
                      intro hnil
                      have := congrArg List.length hnil
                      simp [List.length_dropLast] at this),
                    headD_dropLast _ (by simp)]
                  rfl
              · have hparts : parts = g :: g' :: t := (Option.some_inj.mp hm).symm
                rw [hparts]
                rfl
            -- head character
            have hheadws : pyWhitespace (cs.headD ' ') = false := by
              rw [← hjoin, joinCh_headD]
              split
              · decide
              · next hgne =>
                rcases hhead with hemp | ⟨m, hpm⟩
                · rw [hheadg] at hemp
                  exact absurd hemp hgne
                · rw [hheadg] at hpm
                  obtain ⟨-, -, hallhex, -, -⟩ := parseHextet_inv g m hpm
                  exact hex_not_ws _ (hallhex _ (mem_headD g hgne ' '))
            -- last character
            have hlastws : pyWhitespace (cs.getLastD ' ') = false := by
              by_cases hle : (g :: g' :: t).getLastD [] = []
              · rw [← hjoin, joinCh_last_empty ':' _ (by simp) hle]
                decide
              · rw [← hjoin, joinCh_last_ne ':' _ (by simp) hle]
                split at hm
                · next hdot =>
                  cases hw : parseIPv4 ((g :: g' :: t).getLastD []) with
                  | none =>
                    rw [hw] at hm
                    exact Option.noConfusion hm
                  | some w =>
                    have hocts := parseIPv4_octets _ w hw
                    have hosp : joinCh '.' (splitCh '.' ((g :: g' :: t).getLastD [])) =
                        (g :: g' :: t).getLastD [] := joinCh_splitCh '.' _
                    have hone : splitCh '.' ((g :: g' :: t).getLastD []) ≠ [] :=
                      splitCh_ne_nil '.' _
                    have holast := getLastD_mem _ hone ([] : List Char)
                    obtain ⟨hoct_ne, hoct_dec⟩ := hocts _ holast
                    rw [← hosp, joinCh_last_ne '.' _ hone hoct_ne]
                    exact dec_not_ws _ (hoct_dec _ (getLastD_mem _ hoct_ne ' '))
                · next hdot =>
                  have hparts : parts = g :: g' :: t := (Option.some_inj.mp hm).symm
                  rcases hlast with hemp | ⟨m, hpm⟩
                  · rw [hparts] at hemp
                    rw [getLastD_irrel _ (by simp) [' '] []] at hemp
                    exact absurd hemp hle
                  · rw [hparts, getLastD_irrel _ (by simp) [' '] []] at hpm
                    obtain ⟨-, -, hallhex, -, -⟩ := parseHextet_inv _ m hpm
                    exact hex_not_ws _
                      (hallhex _ (getLastD_mem _ hle ' '))
            exact pyStrip_eq_self cs hheadws hlastws

/-- Membership in the core compression shape: every part is an original
part or the empty marker. -/
theorem mem_compress_core (hs hs1 : List (List Char)) (a b : Nat) (p : List Char)
    (h1 : hs1 = hs ∨ hs1 = hs ++ [[]])
    (hp : p ∈ hs1.take a ++ [[]] ++ hs1.drop b) : p ∈ hs ∨ p = [] := by
  have hmem1 : p ∈ hs1 ∨ p = [] := by
    simp only [List.mem_append, List.mem_singleton] at hp
    rcases hp with (hp | hp) | hp
    · exact Or.inl (List.take_subset a hs1 hp)
    · exact Or.inr hp
    · exact Or.inl (List.drop_subset b hs1 hp)
  rcases hmem1 with hp1 | hp1
  · rcases h1 with rfl | rfl
    · exact Or.inl hp1
    · rcases List.mem_append.mp hp1 with hq | hq
      · exact Or.inl hq
      · exact Or.inr (by simpa using hq)
  · exact Or.inr hp1

/-- Every entry of `compressHextets hs` is an entry of `hs` or empty. -/
theorem compressHextets_mem (hs : List (List Char)) (p : List Char)
    (hp : p ∈ compressHextets hs) : p ∈ hs ∨ p = [] := by
  rw [compressHextets] at hp
  dsimp only at hp
  split at hp
  · by_cases hc : (bestRunLoop hs 0 (0, 0) (0, 0)).1 +
        (bestRunLoop hs 0 (0, 0) (0, 0)).2 = hs.length
    · simp only [if_pos hc] at hp
      split at hp
      · rcases List.mem_cons.mp hp with h | h
        · exact Or.inr h
        · exact mem_compress_core hs _ _ _ p (Or.inr rfl) h
      · exact mem_compress_core hs _ _ _ p (Or.inr rfl) hp
    · simp only [if_neg hc] at hp
      split at hp
      · rcases List.mem_cons.mp hp with h | h
        · exact Or.inr h
        · exact mem_compress_core hs _ _ _ p (Or.inl rfl) h
      · exact mem_compress_core hs _ _ _ p (Or.inl rfl) hp
  · exact Or.inl hp

/-- The compressed rendering has no `%` and no `/` character. -/
theorem compressChars_clean (v : List Nat) :
    ∀ ch ∈ compressChars v, ch ≠ '%' ∧ ch ≠ '/' := by
  intro ch hch
  rcases mem_joinCh ':' _ ch hch with rfl | ⟨g, hg, hcg⟩
  · exact ⟨by decide, by decide⟩
  · rcases compressHextets_mem _ g hg with hg' | rfl
    · obtain ⟨n, hn, rfl⟩ := List.mem_map.mp hg'
      obtain ⟨d, hd, rfl⟩ := hexNoPad_chars n ch hcg
      exact ⟨(hexDigChar_ne d hd).2.2.1, (hexDigChar_ne d hd).2.2.2.1⟩
    · simp at hcg

/-- The exploded rendering has no `%` and no `/` character. -/
theorem explodedChars_clean (v : List Nat) :
    ∀ ch ∈ explodedChars v, ch ≠ '%' ∧ ch ≠ '/' := by
  intro ch hch
  rcases mem_joinCh ':' _ ch hch with rfl | ⟨g, hg, hcg⟩
  · exact ⟨by decide, by decide⟩
  · obtain ⟨n, hn, rfl⟩ := List.mem_map.mp hg
    obtain ⟨d, hd, rfl⟩ := hex4_chars n ch hcg
    exact ⟨(hexDigChar_ne d hd).2.2.1, (hexDigChar_ne d hd).2.2.2.1⟩

/-- Dropping while characters differ from `%` consumes a `%`-free list. -/
theorem dropWhile_pct (cs : List Char) (h : ∀ ch ∈ cs, ch ≠ '%') :
    cs.dropWhile (fun c => decide (c ≠ '%')) = [] := by
  induction cs with
  | nil => rfl
  | cons a t ih =>
    rw [List.dropWhile_cons, if_pos (by simpa using h a (List.mem_cons_self a t))]
    exact ih (fun ch hch => h ch (List.mem_cons_of_mem a hch))

/-- `_split_scope_id` on a `%`-free string returns it unchanged with no
scope. -/
theorem splitScope_clean (cs : List Char) (h : ∀ ch ∈ cs, ch ≠ '%') :
    splitScope cs = some (cs, none) := by
  rw [splitScope, dropWhile_pct cs h]

/-- A scope-free `_split_scope_id` result is the whole input. -/
theorem splitScope_none_inv (cs addr : List Char)
    (h : splitScope cs = some (addr, none)) : addr = cs := by
  rw [splitScope] at h
  rcases hd : cs.dropWhile (fun c => decide (c ≠ '%')) with _ | ⟨x, scope⟩
  · rw [hd] at h
    have h2 : some ((cs, none) : List Char × Option (List Char)) =
        some (addr, none) := h
    exact (congrArg Prod.fst (Option.some_inj.mp h2)).symm
  · rw [hd] at h
    have h2 : (if scope = [] ∨ scope.contains '%' then none
        else some (cs.takeWhile (fun c => decide (c ≠ '%')), some scope)) =
        some (addr, none) := h
    split at h2
    · exact Option.noConfusion h2
    · have := congrArg Prod.snd (Option.some_inj.mp h2)
      simp at this

/-- A scope-free successful `parseAddr` is a successful core parse of the
whole input. -/
theorem parseAddr_none_inv (cs : List Char) (v : List Nat)
    (h : parseAddr cs = some (v, none)) :
    parseIPv6Core cs = some v := by
  rw [parseAddr] at h
  split at h
  · exact Option.noConfusion h
  · rcases hss : splitScope cs with _ | ⟨addr, scope⟩
    · rw [hss] at h
      exact Option.noConfusion h
    · rw [hss] at h
      have h2 : (parseIPv6Core addr).map (fun v => (v, scope)) =
          some (v, none) := h
      rcases hpc : parseIPv6Core addr with _ | u
      · rw [hpc] at h2
        exact Option.noConfusion h2
      · rw [hpc] at h2
        have h3 : some ((u, scope) : List Nat × Option (List Char)) =
            some (v, none) := h2
        have h4 := Option.some_inj.mp h3
        have hu : u = v := congrArg Prod.fst h4
        have hsc : scope = none := congrArg Prod.snd h4
        rw [hsc] at hss
        rw [splitScope_none_inv cs addr hss, hu] at hpc
        exact hpc

/-- `parseAddr` on a `%`- and `/`-free string is the core parse with no
scope. -/
theorem parseAddr_clean (cs : List Char)
    (h : ∀ ch ∈ cs, ch ≠ '%' ∧ ch ≠ '/') :
    parseAddr cs = (parseIPv6Core cs).map (fun v => (v, none)) := by
  have hcon : ¬ cs.contains '/' = true := by
    rw [contains_false cs '/' (fun ch hm => (h ch hm).2)]
    decide
  rw [parseAddr, if_neg hcon, splitScope_clean cs (fun ch hm => (h ch hm).1)]

/-- Hextet values below `2^16` are never special-token ids. -/
theorem isSpecialId_small (x : Nat) (h : x < 65536) :
    isSpecialId (x : Int) = false := by
  have h7 : SPECIAL_TOKENS.length = 7 := rfl
  have hr : List.range 7 = [0, 1, 2, 3, 4, 5, 6] := rfl
  rw [isSpecialId, h7, hr]
  simp only [List.any_cons, List.any_nil, Bool.or_eq_false_iff,
    decide_eq_false_iff_not, TOKEN_OFFSET]
  refine ⟨?_, ?_, ?_, ?_, ?_, ?_, ?_, trivial⟩ <;> omega

/-- `decode`'s part loop on in-range hextet values renders each as four
hex digits. -/
theorem decodeParts_map (v : List Nat) (hb : ∀ x ∈ v, x < 65536) :
    decodeParts (v.map (fun x : Nat => (x : Int))) = v.map hex4 := by
  induction v with
  | nil => rfl
  | cons a t ih =>
    have ha : a < 65536 := hb a (List.mem_cons_self a t)
    have hns : ¬ isSpecialId ((a : Nat) : Int) = true := by
      rw [isSpecialId_small a ha]
      decide
    have hrange : (0 : Int) ≤ ((a : Nat) : Int) ∧ ((a : Nat) : Int) ≤ 65535 := by
      constructor <;> omega
    rw [List.map_cons, List.map_cons, decodeParts, if_neg hns, if_pos hrange,
      ih (fun x hx => hb x (List.mem_cons_of_mem a hx))]
    simp

/-- `decode` on the integer hextet values of an 8-hextet address yields
the compressed rendering. -/
theorem decode_of_values (v : List Nat) (hlen : v.length = 8)
    (hb : ∀ x ∈ v, x < 65536) :
    decode (v.map (fun x : Nat => (x : Int))) = String.mk (compressChars v) := by
  have hne : v.map hex4 ≠ [] := by
    intro hnil
    have := congrArg List.length hnil
    simp [hlen] at this
  have hpa : parseAddr (joinCh ':' (v.map hex4)) = some (v, none) := by
    have hclean : ∀ ch ∈ joinCh ':' (v.map hex4), ch ≠ '%' ∧ ch ≠ '/' :=
      explodedChars_clean v
    rw [parseAddr_clean _ hclean]
    have hcore : parseIPv6Core (joinCh ':' (v.map hex4)) = some v :=
      parse_exploded v hlen hb
    rw [hcore]
    rfl
  rw [decode]
  dsimp only
  rw [decodeParts_map v hb, if_neg hne, hpa]

/-- `_encode_one`'s body tokens on a whitespace-free scope-free valid
address: the integer hextet values. -/
theorem encodeBody_eq (a : List Char) (v : List Nat)
    (hpa : parseAddr a = some (v, none)) (hstrip : pyStrip a = a)
    (hlen : v.length = 8) (hb : ∀ x ∈ v, x < 65536) :
    encodeBody a = v.map (fun x : Nat => (x : Int)) := by
  have hmapne : v.map hex4 ≠ [] := by
    intro hnil
    have := congrArg List.length hnil
    simp [hlen] at this
  have hnocolon : ∀ g ∈ v.map hex4, ∀ x ∈ g, x ≠ ':' := by
    intro g hg x hx
    obtain ⟨n, hn, rfl⟩ := List.mem_map.mp hg
    obtain ⟨d, hd, rfl⟩ := hex4_chars n x hx
    exact (hexDigChar_ne d hd).1
  have hsplit : splitCh ':' (explodedChars v) = v.map hex4 :=
    splitCh_joinCh ':' (v.map hex4) hmapne hnocolon
  have hexp : explodedOf v none = some (explodedChars v) := by
    show (parseIPv6Core (compressChars v)).map explodedChars = _
    rw [parse_compressed v hlen hb]
    rfl
  rw [encodeBody, hstrip, hpa]
  dsimp only
  rw [hexp]
  dsimp only
  rw [hsplit, List.map_map]
  refine List.map_congr_left ?_
  intro x hx
  simp [Function.comp, hex4_hexVal x]

/-- **C1**: for every syntactically valid IPv6 address string carrying
no zone/scope id, encoding with no prepend/append tokens and decoding
yields exactly the canonical compressed rendering of the address's
8-hextet (128-bit) value, and that rendering re-parses to the same
value.  (As stated over *all* valid address strings the claim fails:
a scoped address such as `fe80::1%eth0` is valid yet decodes to `""`;
see the counterexample.) -/
theorem c1_round_trip (a : List Char) (v : List Nat)
    (h : parseAddr a = some (v, none)) :
    decode (encodeOne a none none) = String.mk (compressChars v) ∧
    parseAddr (compressChars v) = some (v, none) := by
  have hcore : parseIPv6Core a = some v := parseAddr_none_inv a v h
  obtain ⟨⟨hlen, hb⟩, hstrip⟩ := parseIPv6Core_inv a v hcore
  have hane : ¬ a = [] := by
    intro hnil
    rw [hnil, parseIPv6Core] at hcore
    simp at hcore
  have hbody : encodeBody a = v.map (fun x : Nat => (x : Int)) :=
    encodeBody_eq a v h hstrip hlen hb
  have hone : encodeOne a none none = v.map (fun x : Nat => (x : Int)) := by
    rw [encodeOne, hstrip, if_neg hane]
    simp [hbody]
  rw [hone]
  constructor
  · exact decode_of_values v hlen hb
  · rw [parseAddr_clean _ (compressChars_clean v), parse_compressed v hlen hb]
    rfl

/-- **C1** counterexample: `fe80::1%eth0` is a syntactically valid IPv6
address string (the source parser accepts it, with zone id `eth0`), yet
`decode (encode _)` returns the empty string, which denotes no address
at all — because `.exploded` re-parses `str(self)` including the
`%eth0` suffix and raises, so no body tokens are emitted. -/
theorem c1_counterexample :
    parseAddr ("fe80::1%eth0".toList) =
      some ([65152, 0, 0, 0, 0, 0, 0, 1], some ("eth0".toList)) ∧
    decode (encodeOne ("fe80::1%eth0".toList) none none) = "" := by
  constructor
  · decide
  · rfl

/-- **C1** witness: the round trip at the boundary cases `::`, `::1`,
the all-`ffff` address, and a mid-range address with no zero-run. -/
theorem c1_round_trip_witness :
    (decode (encodeOne ("::".toList) none none) =
        String.mk (compressChars [0, 0, 0, 0, 0, 0, 0, 0]) ∧
      parseAddr (compressChars [0, 0, 0, 0, 0, 0, 0, 0]) =
        some ([0, 0, 0, 0, 0, 0, 0, 0], none)) ∧
    (decode (encodeOne ("::1".toList) none none) =
        String.mk (compressChars [0, 0, 0, 0, 0, 0, 0, 1]) ∧
      parseAddr (compressChars [0, 0, 0, 0, 0, 0, 0, 1]) =
        some ([0, 0, 0, 0, 0, 0, 0, 1], none)) ∧
    (decode (encodeOne ("ffff:ffff:ffff:ffff:ffff:ffff:ffff:ffff".toList) none none) =
        String.mk (compressChars (List.replicate 8 65535)) ∧
      parseAddr (compressChars (List.replicate 8 65535)) =
        some (List.replicate 8 65535, none)) ∧
    (decode (encodeOne ("2001:db8:85a3:8d3:1319:8a2e:370:7344".toList) none none) =
        String.mk (compressChars [8193, 3512, 34211, 2259, 4889, 35374, 880, 29508]) ∧
      parseAddr (compressChars [8193, 3512, 34211, 2259, 4889, 35374, 880, 29508]) =
        some ([8193, 3512, 34211, 2259, 4889, 35374, 880, 29508], none)) :=
  ⟨c1_round_trip _ _ (by decide), c1_round_trip _ _ (by decide),
   c1_round_trip _ _ (by decide), c1_round_trip _ _ (by decide)⟩

end NanoChat
